import Mathlib

/-!
Formal model of the LSB++ adaptive steganography engine
(app/core/stego/lsb_plus): bitstream utilities, envelope header,
texture analysis, capacity mapping, seeded pixel ordering, and the
bit-level embed/extract loops, together with the orchestrating
embed/extract pipeline of class LSBPP.

Bytes are modeled as natural numbers below 256 and byte strings as
lists of naturals.  Image buffers (numpy uint8 H by W by 3 arrays) are
modeled as functions from coordinates to channel values.  Floating
point image analysis (float32/float64) is modeled over the real
numbers with exact arithmetic.  External cryptographic primitives
(AES-GCM, Argon2id, RSA-OAEP) are collaborators consumed through an
explicit operations record, exactly as the engine consumes them.
-/

set_option maxRecDepth 4000

namespace LSBPlus

/-! ## Bitstream utilities (engine/util/bitstream.py) -/

/-- bytes_to_bits for one byte: MSB-first list of 8 bits, each bit
computed as (b >>> (7 - i)) &&& 1. -/
def byteToBits (b : Nat) : List Nat :=
  (List.range 8).map (fun i => (b >>> (7 - i)) &&& 1)

/-- bytes_to_bits: concatenate the MSB-first bits of every byte. -/
def bytes_to_bits (data : List Nat) : List Nat :=
  data.flatMap byteToBits

/-- Fold eight bits into one byte, MSB first: byte = (byte <<< 1) ||| (bit &&& 1). -/
def bitsToByte (bits : List Nat) : Nat :=
  bits.foldl (fun acc b => (acc <<< 1) ||| (b &&& 1)) 0

/-- bits_to_bytes: truncate to a whole number of bytes
(length // 8 * 8 bits) and fold each 8-bit group MSB-first. -/
def bits_to_bytes (bits : List Nat) : List Nat :=
  if h : bits.length < 8 then []
  else bitsToByte (bits.take 8) :: bits_to_bytes (bits.drop 8)
termination_by bits.length
decreasing_by
  simp only [List.length_drop]
  omega

/-! ## Envelope header (lsb_utils/header.py) -/

/-- Header magic bytes b"STG". -/
def MAGIC : List Nat := [83, 84, 71]

/-- Header length: 3 magic bytes plus a 4-byte big-endian length. -/
def HEADER_LEN : Nat := 7

/-- Largest length representable in the 4-byte unsigned field. -/
def MAX_PAYLOAD_LEN : Nat := 2 ^ 32 - 1

/-- Big-endian fixed-width byte encoding of a natural number
(int.to_bytes with byteorder big). -/
def toBytesBE (n : Nat) (v : Nat) : List Nat :=
  (List.range n).map (fun i => (v >>> (8 * (n - 1 - i))) &&& 255)

/-- Big-endian byte decoding (int.from_bytes with byteorder big). -/
def fromBytesBE (l : List Nat) : Nat :=
  l.foldl (fun acc b => acc * 256 + b) 0

def msgPayloadTooLarge : String := "payload_length too large for 4-byte uint32"

def msgBadHeaderLen : String := "Header must be 7 bytes"

def msgBadMagic : String := "Invalid header magic (expected STG)."

/-- build_plain_header: MAGIC followed by the payload length as a
4-byte big-endian unsigned integer; rejects lengths above 2 ^ 32 - 1. -/
def build_plain_header (payload_length : Nat) : Except String (List Nat) :=
  if payload_length > MAX_PAYLOAD_LEN then Except.error msgPayloadTooLarge
  else Except.ok (MAGIC ++ toBytesBE 4 payload_length)

/-- validate_header: require exactly 7 bytes starting with b"STG" and
return the big-endian payload length stored in the last 4 bytes. -/
def validate_header (hd : List Nat) : Except String Nat :=
  if hd.length ≠ HEADER_LEN then Except.error msgBadHeaderLen
  else if hd.take 3 ≠ MAGIC then Except.error msgBadMagic
  else Except.ok (fromBytesBE (hd.drop 3))

/-! ## Low-level bit embedding and extraction
(engine/embedding.py and engine/extraction.py)

A flat pixel buffer (the reshape(-1, 3) view of the rgb array) is a
function from flat pixel index to the three channel values. -/

/-- One pixel of the flat rgb view: channel index to value. -/
abbrev Pix := Fin 3 → Nat

/-- The flat reshape(-1, 3) view of an rgb buffer. -/
abbrev FlatImg := Nat → Pix

/-- _bitwise_lsb: replace the least significant bit of val with bit,
as (val &&& 0xFE) ||| (bit &&& 0x01). -/
def _bitwise_lsb (val bit : Nat) : Nat :=
  (val &&& 0xFE) ||| (bit &&& 1)

/-- Channel visit order of both loops: Blue, Green, Red
(channels = (2, 1, 0)). -/
def channelOrder : List (Fin 3) := [2, 1, 0]

/-- Inner channel loop of the embedder: walk the channel order while
per-pixel capacity and payload bits remain, replacing each visited
channel value by _bitwise_lsb of it and the next payload bit.
Returns the updated pixel and the unconsumed bits. -/
def writeChans : List (Fin 3) → Nat → Pix → List Nat → Pix × List Nat
  | [], _, px, bits => (px, bits)
  | _ :: _, 0, px, bits => (px, bits)
  | _ :: _, _ + 1, px, [] => (px, [])
  | c :: cs, cap + 1, px, b :: bs =>
      writeChans cs cap (Function.update px c (_bitwise_lsb (px c) b)) bs

/-- Inner channel loop of the extractor: walk the channel order while
per-pixel capacity remains, reading val &&& 1 from each visited channel. -/
def readChans : List (Fin 3) → Nat → Pix → List Nat
  | [], _, _ => []
  | _ :: _, 0, _ => []
  | c :: cs, cap + 1, px => (px c &&& 1) :: readChans cs cap px

/-- Main embedding loop: for each flat index in the pixel order, stop
once all payload bits are embedded, skip pixels of zero capacity, and
otherwise run the channel loop with that pixel and its capacity.
Returns the final buffer and the bits left unembedded. -/
def embedGo : List Nat → (Nat → Nat) → FlatImg → List Nat → FlatImg × List Nat
  | [], _, img, bits => (img, bits)
  | p :: rest, cap, img, bits =>
      if bits = [] then (img, bits)
      else if cap p = 0 then embedGo rest cap img bits
      else
        let r := writeChans channelOrder (cap p) (img p) bits
        embedGo rest cap (Function.update img p r.1) r.2

def msgInsufficientCapacity : String := "Insufficient Capacity Error"

/-- embed_bits_low_level: run the embedding loop over the pixel order
and fail with the capacity error when payload bits are left over
(bit_pos < total_bits after the loop). -/
def embed_bits_low_level (img : FlatImg) (order : List Nat)
    (capacity_flat : Nat → Nat) (bits : List Nat) : Except String FlatImg :=
  let r := embedGo order capacity_flat img bits
  if r.2 = [] then Except.ok r.1 else Except.error msgInsufficientCapacity

/-- Main extraction loop: for each flat index in the pixel order read
up to its capacity in channel bits (pixels of zero capacity contribute
nothing), concatenating all bits read. -/
def extractGo : List Nat → (Nat → Nat) → FlatImg → List Nat
  | [], _, _ => []
  | p :: rest, cap, img => readChans channelOrder (cap p) (img p) ++ extractGo rest cap img

/-- extract_bits_low_level: the extraction loop over the pixel order. -/
def extract_bits_low_level (img : FlatImg) (order : List Nat)
    (capacity_flat : Nat → Nat) : List Nat :=
  extractGo order capacity_flat img

/-- Number of bits the extraction loop yields for one pixel of
capacity c: min c 3 (three channels). -/
def pixBits (c : Nat) : Nat := min c 3

/-- Total number of bits reachable through a pixel order. -/
def orderBits (order : List Nat) (cap : Nat → Nat) : Nat :=
  (order.map (fun p => pixBits (cap p))).sum

/-! ## Texture analysis (engine/analyzer)

The analyzer works on float arrays; we model the float values exactly
over the real numbers. -/

/-- An H by W by 3 uint8 image buffer. -/
def Img (h w : Nat) : Type := Fin h → Fin w → Fin 3 → Nat

/-- _preprocess_image: clear each channel LSB (value &&& 0xFE) and
convert to grayscale with the BT.601 weights
0.299 R + 0.587 G + 0.114 B. -/
noncomputable def grayMap {h w : Nat} (rgb : Img h w) (y : Fin h) (x : Fin w) : ℝ :=
  0.299 * ((rgb y x 0 &&& 0xFE : Nat) : ℝ) +
    0.587 * ((rgb y x 1 &&& 0xFE : Nat) : ℝ) +
    0.114 * ((rgb y x 2 &&& 0xFE : Nat) : ℝ)

/-- _sobel_reflect_jit: 3x3 Sobel magnitude at one pixel; out-of-range
neighbor coordinates are pulled back to the nearest edge
(x_L = max (x-1) 0, x_R = min (x+1) (cols-1), and likewise for rows),
which mirrors the pixel just outside the image onto the edge pixel. -/
noncomputable def sobelMag {h w : Nat} (g : Fin h → Fin w → ℝ) (y : Fin h) (x : Fin w) : ℝ :=
  let xL : Fin w := ⟨x.val - 1, by have := x.isLt; omega⟩
  let xR : Fin w := ⟨min (x.val + 1) (w - 1), by have := x.isLt; omega⟩
  let yT : Fin h := ⟨y.val - 1, by have := y.isLt; omega⟩
  let yB : Fin h := ⟨min (y.val + 1) (h - 1), by have := y.isLt; omega⟩
  let gx := (g yT xR + 2 * g y xR + g yB xR) - (g yT xL + 2 * g y xL + g yB xL)
  let gy := (g yB xL + 2 * g yB x + g yB xR) - (g yT xL + 2 * g yT x + g yT xR)
  Real.sqrt (gx ^ 2 + gy ^ 2)

/-- Nonempty index set of an image, witnessed by any pixel coordinate. -/
theorem univNonempty {h w : Nat} (y : Fin h) (x : Fin w) :
    (Finset.univ : Finset (Fin h × Fin w)).Nonempty :=
  ⟨(y, x), Finset.mem_univ _⟩

/-- Minimum Sobel magnitude over the whole image (mag.min()). -/
noncomputable def sobelMin {h w : Nat} (g : Fin h → Fin w → ℝ) (y : Fin h) (x : Fin w) : ℝ :=
  Finset.univ.inf' (univNonempty y x) (fun p : Fin h × Fin w => sobelMag g p.1 p.2)

/-- Maximum Sobel magnitude over the whole image (mag.max()). -/
noncomputable def sobelMax {h w : Nat} (g : Fin h → Fin w → ℝ) (y : Fin h) (x : Fin w) : ℝ :=
  Finset.univ.sup' (univNonempty y x) (fun p : Fin h × Fin w => sobelMag g p.1 p.2)

/-- compute_normalized_sobel: min-max normalize the Sobel magnitude over
the whole image, with denominator 1 when the image is flat
(mag_max = mag_min). -/
noncomputable def compute_normalized_sobel {h w : Nat} (g : Fin h → Fin w → ℝ)
    (y : Fin h) (x : Fin w) : ℝ :=
  let mn := sobelMin g y x
  let mx := sobelMax g y x
  let denom := if mx - mn = 0 then 1 else mx - mn
  (sobelMag g y x - mn) / denom

/-- Reflect an out-of-range index into [0, n), following the numpy pad
mode reflect used for the entropy window (period 2n - 2, mirrored about
the edge elements); a length-1 axis always maps to index 0. -/
noncomputable def reflectIdx (n : Nat) (i : Int) : Nat :=
  if n ≤ 1 then 0
  else
    let m : Int := 2 * (n : Int) - 2
    let j := i % m
    if j < (n : Int) then j.toNat else (m - j).toNat

theorem reflectIdx_lt (n : Nat) (hn : 0 < n) (i : Int) : reflectIdx n i < n := by
  unfold reflectIdx
  by_cases h1 : n ≤ 1
  · simp [h1]; omega
  · simp only [h1, if_false]
    have hm : (0 : Int) < 2 * (n : Int) - 2 := by
      have : (2 : Int) ≤ (n : Int) := by exact_mod_cast (by omega : 2 ≤ n)
      omega
    have hj0 : 0 ≤ i % (2 * (n : Int) - 2) := Int.emod_nonneg i (by omega)
    have hjm : i % (2 * (n : Int) - 2) < 2 * (n : Int) - 2 := Int.emod_lt_of_pos i hm
    by_cases h2 : i % (2 * (n : Int) - 2) < (n : Int)
    · simp only [h2, if_true]
      omega
    · simp only [h2, if_false]
      omega

/-- Clip a float gray value to [0, 255] and truncate to uint8
(np.clip followed by the astype(np.uint8) truncation). -/
noncomputable def grayU8 {h w : Nat} (g : Fin h → Fin w → ℝ) (y : Fin h) (x : Fin w) : Nat :=
  (⌊min 255 (max 0 (g y x))⌋).toNat

/-- Value of the reflect-padded uint8 gray image inside the 5x5 window
centered at (y, x): window cell (wy, wx) reads padded coordinate
(y + wy - 2, x + wx - 2) reflected back into range. -/
noncomputable def windowVal {h w : Nat} (g : Fin h → Fin w → ℝ) (y : Fin h) (x : Fin w)
    (wy wx : Fin 5) : Nat :=
  grayU8 g ⟨reflectIdx h ((y.val + wy.val : Int) - 2), reflectIdx_lt h y.pos _⟩
    ⟨reflectIdx w ((x.val + wx.val : Int) - 2), reflectIdx_lt w x.pos _⟩

/-- Histogram count of gray value k inside the 5x5 window at (y, x). -/
noncomputable def windowCount {h w : Nat} (g : Fin h → Fin w → ℝ) (y : Fin h) (x : Fin w)
    (k : Nat) : Nat :=
  (Finset.univ.filter (fun p : Fin 5 × Fin 5 => windowVal g y x p.1 p.2 = k)).card

/-- Entropy lookup term for a bin of count c in a 25-cell window:
-(p log2 p) with p = c / 25. -/
noncomputable def entropyTerm (c : Nat) : ℝ :=
  -(((c : ℝ) / 25) * Real.logb 2 ((c : ℝ) / 25))

/-- compute_local_entropy at one pixel: sum the lookup term over the 256
histogram bins with positive count, divide by the fixed divisor 8, and
clip the result to [0, 1]. -/
noncomputable def compute_local_entropy {h w : Nat} (g : Fin h → Fin w → ℝ)
    (y : Fin h) (x : Fin w) : ℝ :=
  let s := ∑ k ∈ Finset.range 256,
    if 0 < windowCount g y x k then entropyTerm (windowCount g y x k) else 0
  min 1 (max 0 (s / 8))

/-- Surface score: 0.6 gradient + 0.4 entropy, clipped to [0, 1]
(compute_texture_features). -/
noncomputable def surfaceScore {h w : Nat} (rgb : Img h w) (y : Fin h) (x : Fin w) : ℝ :=
  min 1 (max 0 (0.6 * compute_normalized_sobel (grayMap rgb) y x +
    0.4 * compute_local_entropy (grayMap rgb) y x))

/-- Entropy map of an rgb image, as used for the pixel order. -/
noncomputable def entropyMapOf {h w : Nat} (rgb : Img h w) (y : Fin h) (x : Fin w) : ℝ :=
  compute_local_entropy (grayMap rgb) y x

/-- _compute_capacity_jit threshold chain on one surface score value:
val > 0.65 gives 3, val > 0.25 gives 2, val > 0.15 gives 1, else 0. -/
noncomputable def capacityOfScore (val : ℝ) : Nat :=
  if 0.65 < val then 3
  else if 0.25 < val then 2
  else if 0.15 < val then 1
  else 0

/-- compute_capacity: apply the threshold chain to a surface map. -/
noncomputable def compute_capacity {h w : Nat} (surface_map : Fin h → Fin w → ℝ)
    (y : Fin h) (x : Fin w) : Nat :=
  capacityOfScore (surface_map y x)

/-- Finalized capacity map of an image. -/
noncomputable def capacityMap {h w : Nat} (rgb : Img h w) (y : Fin h) (x : Fin w) : Nat :=
  compute_capacity (surfaceScore rgb) y x

/-- Flatten a 2-D image to the reshape(-1, 3) view: flat index i reads
pixel (i / w, i mod w); out-of-range indices read 0. -/
def flatten {h w : Nat} (rgb : Img h w) : FlatImg := fun i c =>
  if hy : i / w < h then
    if hx : i % w < w then rgb ⟨i / w, hy⟩ ⟨i % w, hx⟩ c else 0
  else 0

/-- Flatten a 2-D per-pixel map to flat indexing (ravel). -/
def flatMap2 {h w : Nat} (m : Fin h → Fin w → Nat) : Nat → Nat := fun i =>
  if hy : i / w < h then
    if hx : i % w < w then m ⟨i / w, hy⟩ ⟨i % w, hx⟩ else 0
  else 0

/-- Read a flat buffer back as a 2-D image (undo the reshape view). -/
def unflatten (h w : Nat) (f : FlatImg) : Img h w := fun y x c =>
  f (y.val * w + x.val) c

/-- Flatten a 2-D real map to flat indexing, for the entropy sort. -/
noncomputable def flatMapR {h w : Nat} (m : Fin h → Fin w → ℝ) : Nat → ℝ := fun i =>
  if hy : i / w < h then
    if hx : i % w < w then m ⟨i / w, hy⟩ ⟨i % w, hx⟩ else 0
  else 0

/-! ## SHA-256 (hashlib.sha256, consumed by the pixel order seed) -/

/-- Rotate a 32-bit word right by n bits. -/
def rotr32 (n x : Nat) : Nat := ((x >>> n) ||| (x <<< (32 - n))) &&& 0xFFFFFFFF

def sha256K : List Nat :=
  [1116352408, 1899447441, 3049323471, 3921009573, 961987163, 1508970993,
   2453635748, 2870763221, 3624381080, 310598401, 607225278, 1426881987,
   1925078388, 2162078206, 2614888103, 3248222580, 3835390401, 4022224774,
   264347078, 604807628, 770255983, 1249150122, 1555081692, 1996064986,
   2554220882, 2821834349, 2952996808, 3210313671, 3336571891, 3584528711,
   113926993, 338241895, 666307205, 773529912, 1294757372, 1396182291,
   1695183700, 1986661051, 2177026350, 2456956037, 2730485921, 2820302411,
   3259730800, 3345764771, 3516065817, 3600352804, 4094571909, 275423344,
   430227734, 506948616, 659060556, 883997877, 958139571, 1322822218,
   1537002063, 1747873779, 1955562222, 2024104815, 2227730452, 2361852424,
   2428436474, 2756734187, 3204031479, 3329325298]

def smallSigma0 (x : Nat) : Nat := rotr32 7 x ^^^ rotr32 18 x ^^^ (x >>> 3)

def smallSigma1 (x : Nat) : Nat := rotr32 17 x ^^^ rotr32 19 x ^^^ (x >>> 10)

def bigSigma0 (x : Nat) : Nat := rotr32 2 x ^^^ rotr32 13 x ^^^ rotr32 22 x

def bigSigma1 (x : Nat) : Nat := rotr32 6 x ^^^ rotr32 11 x ^^^ rotr32 25 x

/-- Pad a message to a whole number of 64-byte blocks: append 0x80,
enough zero bytes, then the bit length as 8 big-endian bytes. -/
def sha256Pad (msg : List Nat) : List Nat :=
  msg ++ [0x80] ++ List.replicate ((119 - msg.length % 64) % 64) 0 ++
    toBytesBE 8 (8 * msg.length)

/-- Group bytes into big-endian 32-bit words. -/
def bytesToWords : List Nat → List Nat
  | b0 :: b1 :: b2 :: b3 :: rest =>
      ((((b0 <<< 8) ||| b1) <<< 8 ||| b2) <<< 8 ||| b3) :: bytesToWords rest
  | _ => []

/-- Extend the 16-word schedule by n further words. -/
def extendSchedule (ws : List Nat) : Nat → List Nat
  | 0 => ws
  | n + 1 =>
      let prev := extendSchedule ws n
      prev ++ [(smallSigma1 (prev.getD (prev.length - 2) 0) +
        prev.getD (prev.length - 7) 0 +
        smallSigma0 (prev.getD (prev.length - 15) 0) +
        prev.getD (prev.length - 16) 0) % 2 ^ 32]

structure Sha256State where
  a : Nat
  b : Nat
  c : Nat
  d : Nat
  e : Nat
  f : Nat
  g : Nat
  hh : Nat

def sha256Round (st : Sha256State) (wi ki : Nat) : Sha256State :=
  let ch := (st.e &&& st.f) ^^^ ((st.e ^^^ 0xFFFFFFFF) &&& st.g)
  let maj := (st.a &&& st.b) ^^^ (st.a &&& st.c) ^^^ (st.b &&& st.c)
  let t1 := (st.hh + bigSigma1 st.e + ch + ki + wi) % 2 ^ 32
  let t2 := (bigSigma0 st.a + maj) % 2 ^ 32
  ⟨(t1 + t2) % 2 ^ 32, st.a, st.b, st.c, (st.d + t1) % 2 ^ 32, st.e, st.f, st.g⟩

def sha256Block (hs : Sha256State) (block : List Nat) : Sha256State :=
  let ws := extendSchedule (bytesToWords block) 48
  let st := (ws.zip sha256K).foldl (fun st p => sha256Round st p.1 p.2) hs
  ⟨(hs.a + st.a) % 2 ^ 32, (hs.b + st.b) % 2 ^ 32, (hs.c + st.c) % 2 ^ 32,
   (hs.d + st.d) % 2 ^ 32, (hs.e + st.e) % 2 ^ 32, (hs.f + st.f) % 2 ^ 32,
   (hs.g + st.g) % 2 ^ 32, (hs.hh + st.hh) % 2 ^ 32⟩

def sha256Blocks (st : Sha256State) (bytes : List Nat) : Sha256State :=
  if bytes.length = 0 then st
  else sha256Blocks (sha256Block st (bytes.take 64)) (bytes.drop 64)
termination_by bytes.length
decreasing_by
  simp only [List.length_drop]
  omega

def sha256InitState : Sha256State :=
  ⟨1779033703, 3144134277, 1013904242, 2773480762,
   1359893119, 2600822924, 528734635, 1541459225⟩

/-- Full SHA-256 digest (32 bytes) of a byte string. -/
def sha256 (msg : List Nat) : List Nat :=
  let st := sha256Blocks sha256InitState (sha256Pad msg)
  toBytesBE 4 st.a ++ toBytesBE 4 st.b ++ toBytesBE 4 st.c ++ toBytesBE 4 st.d ++
    toBytesBE 4 st.e ++ toBytesBE 4 st.f ++ toBytesBE 4 st.g ++ toBytesBE 4 st.hh

/-! ## Pixel order (engine/pixel_order.py) -/

/-- The 64-bit PRNG seed: the first 8 bytes of SHA-256 of the seed
string, read as a big-endian unsigned integer. -/
def seedInt (seed : List Nat) : Nat := fromBytesBE ((sha256 seed).take 8)

/-- Modelled from the spec: the shuffle consumes the numpy default
PRNG (an external collaborator, PCG64, whose exact algorithm is not
part of this repository); the spec only requires one fixed
deterministic PRNG algorithm project-wide, seeded with the derived
64-bit integer.  We fix a 64-bit linear congruential generator. -/
def prngNext (s : Nat) : Nat :=
  (6364136223846793005 * s + 1442695040888963407) % 2 ^ 64

/-- Swap the entries at positions i and j of a list (in-place swap of
the numpy shuffle); out-of-range positions leave the list unchanged. -/
def swapList {α : Type} (l : List α) (i j : Nat) : List α :=
  if hi : i < l.length then
    if hj : j < l.length then (l.set i l[j]).set j l[i]
    else l
  else l

/-- Fisher-Yates shuffle steps for positions k, k-1, ..., 1: position
i swaps with a PRNG draw in [0, i]. -/
def shuffleFrom (k : Nat) (s : Nat) (l : List Nat) : List Nat :=
  match k with
  | 0 => l
  | Nat.succ k2 =>
      shuffleFrom k2 (prngNext s) (swapList l (k2 + 1) (prngNext s % (k2 + 2)))

/-- rng.shuffle over a whole list, seeded. -/
def shuffleSeeded (seed : Nat) (l : List Nat) : List Nat :=
  shuffleFrom (l.length - 1) seed l

/-- build_pixel_order: flat indices sorted by entropy descending
(argsort ascending, then reversed), then shuffled with the PRNG seeded
from SHA-256 of the seed string. -/
noncomputable def build_pixel_order {h w : Nat} (entropy_map : Fin h → Fin w → ℝ)
    (seed : List Nat) : List Nat :=
  let flatE := flatMapR entropy_map
  let sorted := (List.range (h * w)).mergeSort (fun i j => decide (flatE i ≤ flatE j))
  let sortedDesc := sorted.reverse
  shuffleSeeded (seedInt seed) sortedDesc

/-! ## Crypto envelope (lsbpp.py together with the crypto collaborators)

The cryptographic primitives live outside the engine (cryptography and
argon2 libraries); the engine consumes them as black boxes.  We model
them as an explicit record of operations.  AES-GCM nonce generation and
salt generation draw from the OS entropy pool; that randomness is
passed in explicitly. -/

structure CryptoOps where
  PubKey : Type
  PrivKey : Type
  kdf : List Nat → List Nat → List Nat
  aesEnc : List Nat → List Nat → List Nat → List Nat
  aesDec : List Nat → List Nat → List Nat → Except String (List Nat)
  rsaEnc : PubKey → List Nat → List Nat
  rsaDec : PrivKey → List Nat → Except String (List Nat)
  derivePub : PrivKey → PubKey
  fingerprintPK : PubKey → List Nat

/-- Randomness drawn during one embed call: the Argon2id salt, the
AES-GCM nonce, and (public-key mode) the fresh 32-byte symmetric key. -/
structure EmbedRandomness where
  salt : List Nat
  nonce : List Nat
  symKey : List Nat

def MODE_NONE : Nat := 0x00

def MODE_SYMMETRIC : Nat := 0x01

def MODE_ASYMMETRIC : Nat := 0x02

def SALT_LEN : Nat := 16

def NONCE_LEN : Nat := 12

/-- UTF-8 bytes of the literal seed string default_seed. -/
def defaultSeed : List Nat := [100, 101, 102, 97, 117, 108, 116, 95, 115, 101, 101, 100]

/-- UTF-8 bytes of the seed prefix asym: for public-key mode. -/
def asymSeedPrefix : List Nat := [97, 115, 121, 109, 58]

def msgEmptyPassword : String := "Password cannot be empty."

def msgPasswordRequired : String := "Password required for extraction."

def msgEkTooLarge : String := "ek length does not fit in 2 bytes"

/-- _build_symmetric_stream: derive the key from password and salt,
encrypt, and lay out MODE SYM, header(len ct), salt, nonce, ct. -/
def _build_symmetric_stream (C : CryptoOps) (rnd : EmbedRandomness)
    (password : List Nat) (payload_bytes : List Nat) : Except String (List Nat) :=
  let key := C.kdf password rnd.salt
  let ct := C.aesEnc key rnd.nonce payload_bytes
  match build_plain_header ct.length with
  | Except.error e => Except.error e
  | Except.ok header => Except.ok (MODE_SYMMETRIC :: (header ++ rnd.salt ++ rnd.nonce ++ ct))

/-- _build_asymmetric_stream: wrap a fresh symmetric key with RSA,
encrypt the payload with it, and lay out MODE ASYM, header(len ct),
ek_len (2 bytes big-endian), ek, nonce, ct; also return the public key
fingerprint for the seed. -/
def _build_asymmetric_stream (C : CryptoOps) (rnd : EmbedRandomness)
    (pk : C.PubKey) (payload_bytes : List Nat) : Except String (List Nat × List Nat) :=
  let ek := C.rsaEnc pk rnd.symKey
  let ct := C.aesEnc rnd.symKey rnd.nonce payload_bytes
  match build_plain_header ct.length with
  | Except.error e => Except.error e
  | Except.ok header =>
      if ek.length ≥ 2 ^ 16 then Except.error msgEkTooLarge
      else
        Except.ok (MODE_ASYMMETRIC :: (header ++ toBytesBE 2 ek.length ++ ek ++ rnd.nonce ++ ct),
          C.fingerprintPK pk)

/-- Credential supplied to embed (the encrypt_mode dispatch of
LSBPP.embed, modeled as a tagged union). -/
inductive EmbedCred (C : CryptoOps) where
  | plain : EmbedCred C
  | password (pw : List Nat) : EmbedCred C
  | publicKey (pk : C.PubKey) : EmbedCred C

/-- Credential supplied to extract. -/
inductive ExtractCred (C : CryptoOps) where
  | plain : ExtractCred C
  | password (pw : List Nat) : ExtractCred C
  | privateKey (sk : C.PrivKey) : ExtractCred C

/-- Steps 3 of LSBPP.embed: build the envelope stream and the pixel
order seed for the chosen credential. -/
def buildStream (C : CryptoOps) (rnd : EmbedRandomness) (payload_bytes : List Nat) :
    EmbedCred C → Except String (List Nat × List Nat)
  | EmbedCred.plain =>
      match build_plain_header payload_bytes.length with
      | Except.error e => Except.error e
      | Except.ok header => Except.ok (MODE_NONE :: (header ++ payload_bytes), defaultSeed)
  | EmbedCred.password pw =>
      if pw = [] then Except.error msgEmptyPassword
      else
        match _build_symmetric_stream C rnd pw payload_bytes with
        | Except.error e => Except.error e
        | Except.ok stream => Except.ok (stream, pw)
  | EmbedCred.publicKey pk =>
      match _build_asymmetric_stream C rnd pk payload_bytes with
      | Except.error e => Except.error e
      | Except.ok r => Except.ok (r.1, asymSeedPrefix ++ r.2)

/-- LSBPP.embed: analyze the cover, build stream and seed, build the
pixel order from the entropy map, convert the stream to bits and run
the low-level embedder on a copy of the cover buffer.  The advisory
quality metrics (PSNR, SSIM, histogram drift) are computed on the side
in the source and are not part of the returned stego data. -/
noncomputable def lsbppEmbed (C : CryptoOps) (rnd : EmbedRandomness) {h w : Nat}
    (cover : Img h w) (payload_bytes : List Nat) (cred : EmbedCred C) :
    Except String (Img h w) :=
  match buildStream C rnd payload_bytes cred with
  | Except.error e => Except.error e
  | Except.ok r =>
      match embed_bits_low_level (flatten cover) (build_pixel_order (entropyMapOf cover) r.2)
        (flatMap2 (capacityMap cover)) (bytes_to_bits r.1) with
      | Except.error e => Except.error e
      | Except.ok flat => Except.ok (unflatten h w flat)

/-- Step 3 of LSBPP.extract: reconstruct the pixel order seed from the
supplied credential; public-key mode derives the public key from the
private key and fingerprints it. -/
def seedForExtract (C : CryptoOps) : ExtractCred C → List Nat
  | ExtractCred.plain => defaultSeed
  | ExtractCred.password pw => pw
  | ExtractCred.privateKey sk => asymSeedPrefix ++ C.fingerprintPK (C.derivePub sk)

def msgCiphertextTruncated : String := "Ciphertext truncated."

/-- _decrypt_symmetric_stream: parse MODE, header, salt, nonce; fail
when the ciphertext region is shorter than the header says; then derive
the key and decrypt. -/
def _decrypt_symmetric_stream (C : CryptoOps) (stream_bytes : List Nat)
    (password : List Nat) : Except String (List Nat) :=
  match validate_header ((stream_bytes.drop 1).take HEADER_LEN) with
  | Except.error e => Except.error e
  | Except.ok c_len =>
      let salt := (stream_bytes.drop 8).take SALT_LEN
      let nonce := (stream_bytes.drop 24).take NONCE_LEN
      if stream_bytes.length < 36 + c_len then Except.error msgCiphertextTruncated
      else
        let ct := (stream_bytes.drop 36).take c_len
        let key := C.kdf password salt
        C.aesDec key nonce ct

/-- _decrypt_asymmetric_stream: parse MODE, header, ek_len, ek, nonce;
fail when the ciphertext region is shorter than the header says; then
unwrap the symmetric key and decrypt. -/
def _decrypt_asymmetric_stream (C : CryptoOps) (stream_bytes : List Nat)
    (sk : C.PrivKey) : Except String (List Nat) :=
  match validate_header ((stream_bytes.drop 1).take HEADER_LEN) with
  | Except.error e => Except.error e
  | Except.ok c_len =>
      let ek_len := fromBytesBE ((stream_bytes.drop 8).take 2)
      let ek := (stream_bytes.drop 10).take ek_len
      let nonce := (stream_bytes.drop (10 + ek_len)).take NONCE_LEN
      if stream_bytes.length < 22 + ek_len + c_len then Except.error msgCiphertextTruncated
      else
        let ct := (stream_bytes.drop (22 + ek_len)).take c_len
        match C.rsaDec sk ek with
        | Except.error e => Except.error e
        | Except.ok symKey => C.aesDec symKey nonce ct

/-- _decrypt_plain_stream: parse the header and return the slice
stream_bytes[8 : 8 + p_len]; a short stream silently yields a shorter
slice (python slicing), with no truncation check. -/
def _decrypt_plain_stream (stream_bytes : List Nat) : Except String (List Nat) :=
  match validate_header ((stream_bytes.drop 1).take HEADER_LEN) with
  | Except.error e => Except.error e
  | Except.ok p_len => Except.ok ((stream_bytes.drop 8).take p_len)

def msgMismatchSym : String := "Mode mismatch: Found Symmetric data."

def msgMismatchAsym : String := "Mode mismatch: Found Asymmetric data."

def msgUnknownMode : String := "Unknown/Corrupted mode byte"

def msgDecryptPrefix : String := "Decryption Error: "

def msgNoData : String := "No hidden data found (empty stream)."

/-- Steps 6 and 7 of LSBPP.extract: read the mode byte at the start of
the recovered stream, check it against the declared credential mode for
the two encrypted modes, dispatch to the matching stream parser, and
wrap any failure in the Decryption Error prefix (the try/except of the
source). -/
def dispatchDecrypt (C : CryptoOps) (cred : ExtractCred C) (stream_bytes : List Nat) :
    Except String (List Nat) :=
  let mode_byte := stream_bytes.headD 0
  let inner : Except String (List Nat) :=
    if mode_byte = MODE_SYMMETRIC then
      match cred with
      | ExtractCred.password pw => _decrypt_symmetric_stream C stream_bytes pw
      | _ => Except.error msgMismatchSym
    else if mode_byte = MODE_ASYMMETRIC then
      match cred with
      | ExtractCred.privateKey sk => _decrypt_asymmetric_stream C stream_bytes sk
      | _ => Except.error msgMismatchAsym
    else if mode_byte = MODE_NONE then
      _decrypt_plain_stream stream_bytes
    else Except.error msgUnknownMode
  match inner with
  | Except.ok v => Except.ok v
  | Except.error e => Except.error (msgDecryptPrefix ++ e)

/-- Body of LSBPP.extract after the credential checks: rebuild the
pixel order, read the raw bits, pack them into bytes, require a
nonempty stream and dispatch on the mode byte. -/
noncomputable def lsbppExtractCore (C : CryptoOps) {h w : Nat} (stego : Img h w)
    (cred : ExtractCred C) : Except String (List Nat) :=
  let seed := seedForExtract C cred
  let order := build_pixel_order (entropyMapOf stego) seed
  let bits := extract_bits_low_level (flatten stego) order (flatMap2 (capacityMap stego))
  let stream_bytes := bits_to_bytes bits
  if stream_bytes = [] then Except.error msgNoData
  else dispatchDecrypt C cred stream_bytes

/-- LSBPP.extract: recompute the analysis and capacity map from the
stego image itself, rebuild the pixel order from the credential seed,
read the raw bits, pack them into bytes, and dispatch on the mode byte;
password mode first rejects an empty password. -/
noncomputable def lsbppExtract (C : CryptoOps) {h w : Nat} (stego : Img h w)
    (cred : ExtractCred C) : Except String (List Nat) :=
  match cred with
  | ExtractCred.password pw =>
      if pw = [] then Except.error msgPasswordRequired
      else lsbppExtractCore C stego (ExtractCred.password pw)
  | c => lsbppExtractCore C stego c

/-! ## Concrete instances used by closed statements -/

/-- A degenerate crypto collaborator (identity encryption); used to
instantiate closed statements about code paths that never call into
the collaborator. -/
def trivialCrypto : CryptoOps where
  PubKey := Unit
  PrivKey := Unit
  kdf := fun _ _ => []
  aesEnc := fun _ _ p => p
  aesDec := fun _ _ c => Except.ok c
  rsaEnc := fun _ k => k
  rsaDec := fun _ e => Except.ok e
  derivePub := fun _ => ()
  fingerprintPK := fun _ => []

/-- The 64 by 64 uniform mid-gray cover image of the concrete capacity
scenario. -/
def uniformGray64 : Img 64 64 := fun _ _ _ => 128

/-- Total capacity of the finalized capacity map, summed over the
raveled pixel indices. -/
noncomputable def capTotal {h w : Nat} (rgb : Img h w) : Nat :=
  ((List.range (h * w)).map (flatMap2 (capacityMap rgb))).sum

/-- A matched credential for one embed/extract round: nothing, a shared
password, or a public/private key pair. -/
inductive CredPair (C : CryptoOps) where
  | plain : CredPair C
  | password (pw : List Nat) : CredPair C
  | keypair (pk : C.PubKey) (sk : C.PrivKey) : CredPair C

/-- The embed-side view of a matched credential. -/
def embedSide {C : CryptoOps} : CredPair C → EmbedCred C
  | CredPair.plain => EmbedCred.plain
  | CredPair.password pw => EmbedCred.password pw
  | CredPair.keypair pk _ => EmbedCred.publicKey pk

/-- The extract-side view of a matched credential. -/
def extractSide {C : CryptoOps} : CredPair C → ExtractCred C
  | CredPair.plain => ExtractCred.plain
  | CredPair.password pw => ExtractCred.password pw
  | CredPair.keypair _ sk => ExtractCred.privateKey sk

/-- Assumptions on the external crypto collaborators and drawn
randomness needed for one round trip: the AEAD inverts its encryption
and produces bytes, salt and nonce have their wire sizes and are bytes,
and (public-key mode) the private key matches the public key and RSA
unwraps what was wrapped. -/
def CredOK (C : CryptoOps) (rnd : EmbedRandomness) : CredPair C → Prop
  | CredPair.plain => True
  | CredPair.password pw =>
      pw ≠ [] ∧ rnd.salt.length = SALT_LEN ∧ rnd.nonce.length = NONCE_LEN ∧
        (∀ b ∈ rnd.salt, b < 256) ∧ (∀ b ∈ rnd.nonce, b < 256) ∧
        (∀ k n p, C.aesDec k n (C.aesEnc k n p) = Except.ok p) ∧
        (∀ k n p, ∀ b ∈ C.aesEnc k n p, b < 256)
  | CredPair.keypair pk sk =>
      rnd.nonce.length = NONCE_LEN ∧ (∀ b ∈ rnd.nonce, b < 256) ∧
        C.derivePub sk = pk ∧
        C.rsaDec sk (C.rsaEnc pk rnd.symKey) = Except.ok rnd.symKey ∧
        (∀ b ∈ C.rsaEnc pk rnd.symKey, b < 256) ∧
        (∀ k n p, C.aesDec k n (C.aesEnc k n p) = Except.ok p) ∧
        (∀ k n p, ∀ b ∈ C.aesEnc k n p, b < 256)

/-- Column pattern of the striped witness cover: two dark columns then
two bright columns, repeating. -/
def stripeVal (x : Nat) : Nat := if x % 4 < 2 then 0 else 254

/-- A 4 by 20 striped cover image (all three channels equal). -/
def stripeImg : Img 4 20 := fun _ x _ => stripeVal x.val

/-- Sobel magnitude of the striped image as a natural number. -/
def magStripe (x : Nat) : Nat := if 1 ≤ x ∧ x ≤ 18 then 1016 else 0

/-- Pointwise lower bound for the striped capacity map on flat indices. -/
def lbStripe (i : Nat) : Nat := if 1 ≤ i % 20 ∧ i % 20 ≤ 18 then 2 else 0

/-- Fixed randomness used by closed witness statements. -/
def wRnd : EmbedRandomness :=
  ⟨List.replicate 16 0, List.replicate 12 0, List.replicate 32 0⟩

/-- Following the spec wording for C8: an index just outside the image
reads its mirror just inside (index -1 reads 0, index n reads n - 1). -/
def mirrorIdxSpec (n : Nat) (i : Int) : Nat :=
  if i < 0 then (-i - 1).toNat
  else if (n : Int) ≤ i then (2 * (n : Int) - 1 - i).toNat
  else i.toNat

/-- Sobel magnitude written from the spec words: the 3x3 neighborhood
is addressed through the mirror rule instead of the source's clamped
indices; compared against sobelMag, which is the source translation. -/
noncomputable def sobelMagSpec {h w : Nat} (g : Fin h → Fin w → ℝ) (y : Fin h) (x : Fin w) : ℝ :=
  let xL : Fin w := ⟨mirrorIdxSpec w ((x.val : Int) - 1), by
    have := x.isLt; unfold mirrorIdxSpec; split_ifs <;> omega⟩
  let xR : Fin w := ⟨mirrorIdxSpec w ((x.val : Int) + 1), by
    have := x.isLt; unfold mirrorIdxSpec; split_ifs <;> omega⟩
  let yT : Fin h := ⟨mirrorIdxSpec h ((y.val : Int) - 1), by
    have := y.isLt; unfold mirrorIdxSpec; split_ifs <;> omega⟩
  let yB : Fin h := ⟨mirrorIdxSpec h ((y.val : Int) + 1), by
    have := y.isLt; unfold mirrorIdxSpec; split_ifs <;> omega⟩
  let gx := (g yT xR + 2 * g y xR + g yB xR) - (g yT xL + 2 * g y xL + g yB xL)
  let gy := (g yB xL + 2 * g yB x + g yB xR) - (g yT xL + 2 * g yT x + g yT xR)
  Real.sqrt (gx ^ 2 + gy ^ 2)

/-- One-pixel cover used by closed statements about analysis invariance. -/
def wCover : Img 1 1 := fun _ _ _ => 10

/-- The same pixel with its LSBs flipped. -/
def wStego : Img 1 1 := fun _ _ _ => 11

/-! ## Lemmas about the bit-level loops -/

theorem bitwise_lsb_decomp (v : Nat) (hv : v < 256) (b : Nat) :
    _bitwise_lsb v b = 2 * (v / 2) + b % 2 := by
  have h1 : b &&& 1 = b % 2 := Nat.and_one_is_mod b
  have h2 : b % 2 < 2 := Nat.mod_lt _ (by omega)
  unfold _bitwise_lsb
  rw [h1]
  exact (by decide :
      ∀ v : Fin 256, ∀ r : Fin 2, ((v.val &&& 0xFE) ||| r.val) = 2 * (v.val / 2) + r.val)
    ⟨v, hv⟩ ⟨b % 2, h2⟩

theorem bitwise_lsb_lt (v : Nat) (hv : v < 256) (b : Nat) : _bitwise_lsb v b < 256 := by
  rw [bitwise_lsb_decomp v hv b]; omega

theorem bitwise_lsb_div2 (v : Nat) (hv : v < 256) (b : Nat) :
    _bitwise_lsb v b / 2 = v / 2 := by
  rw [bitwise_lsb_decomp v hv b]; omega

theorem bitwise_lsb_and1 (v : Nat) (hv : v < 256) (b : Nat) :
    _bitwise_lsb v b &&& 1 = b % 2 := by
  rw [Nat.and_one_is_mod, bitwise_lsb_decomp v hv b]; omega

theorem writeChans_snd (cs : List (Fin 3)) (cap : Nat) (px : Pix) (bs : List Nat) :
    (writeChans cs cap px bs).2 = bs.drop (min cap (min cs.length bs.length)) := by
  induction cs generalizing cap px bs with
  | nil => simp [writeChans]
  | cons c cs ih =>
    cases cap with
    | zero => simp [writeChans]
    | succ cap =>
      cases bs with
      | nil => simp [writeChans]
      | cons b bs =>
        rw [writeChans, ih]
        have harith : min (cap + 1) (min ((c :: cs).length) ((b :: bs).length)) =
            min cap (min cs.length bs.length) + 1 := by
          simp only [List.length_cons]; omega
        rw [harith, List.drop_succ_cons]

theorem writeChans_fst_notmem (cs : List (Fin 3)) (cap : Nat) (px : Pix) (bs : List Nat)
    (c : Fin 3) (hc : c ∉ cs) : (writeChans cs cap px bs).1 c = px c := by
  induction cs generalizing cap px bs with
  | nil => cases cap <;> simp [writeChans]
  | cons d cs ih =>
    cases cap with
    | zero => simp [writeChans]
    | succ cap =>
      cases bs with
      | nil => simp [writeChans]
      | cons b bs =>
        have hcd : c ≠ d := fun h => hc (by rw [h]; exact List.mem_cons_self _ _)
        rw [writeChans, ih _ _ _ (fun h => hc (List.mem_cons_of_mem _ h))]
        exact Function.update_noteq hcd _ _

theorem writeChans_fst_div2 (cs : List (Fin 3)) (cap : Nat) (px : Pix) (bs : List Nat)
    (hpx : ∀ k, px k < 256) :
    ∀ k, (writeChans cs cap px bs).1 k < 256 ∧
      (writeChans cs cap px bs).1 k / 2 = px k / 2 := by
  induction cs generalizing cap px bs with
  | nil => intro k; cases cap <;> simpa [writeChans] using hpx k
  | cons c cs ih =>
    cases cap with
    | zero => intro k; simpa [writeChans] using hpx k
    | succ cap =>
      cases bs with
      | nil => intro k; simpa [writeChans] using hpx k
      | cons b bs =>
        intro k
        rw [writeChans]
        have hpx2 : ∀ j, Function.update px c (_bitwise_lsb (px c) b) j < 256 := by
          intro j
          by_cases hj : j = c
          · subst hj; rw [Function.update_same]; exact bitwise_lsb_lt _ (hpx _) _
          · rw [Function.update_noteq hj]; exact hpx j
        obtain ⟨hlt, hdiv⟩ := ih cap (Function.update px c (_bitwise_lsb (px c) b)) bs hpx2 k
        refine ⟨hlt, hdiv.trans ?_⟩
        by_cases hj : k = c
        · subst hj; rw [Function.update_same]; exact bitwise_lsb_div2 _ (hpx _) _
        · rw [Function.update_noteq hj]

theorem readChans_length (cs : List (Fin 3)) (cap : Nat) (px : Pix) :
    (readChans cs cap px).length = min cap cs.length := by
  induction cs generalizing cap with
  | nil => cases cap <;> simp [readChans]
  | cons c cs ih =>
    cases cap with
    | zero => simp [readChans]
    | succ cap =>
      rw [readChans]
      simp only [List.length_cons, ih]
      omega

theorem readChans_writeChans (cs : List (Fin 3)) (cap : Nat) (px : Pix) (bs : List Nat)
    (hnd : cs.Nodup) (hpx : ∀ k, px k < 256) (hb : ∀ b ∈ bs, b % 2 = b) :
    ∃ g, readChans cs cap (writeChans cs cap px bs).1 =
        bs.take (min cap (min cs.length bs.length)) ++ g ∧
      g.length = min cap cs.length - min cap (min cs.length bs.length) := by
  induction cs generalizing cap px bs with
  | nil => exact ⟨[], by simp [writeChans, readChans]⟩
  | cons c cs ih =>
    cases cap with
    | zero => exact ⟨[], by simp [writeChans, readChans]⟩
    | succ cap =>
      cases bs with
      | nil =>
        refine ⟨readChans (c :: cs) (cap + 1) px, by simp [writeChans], ?_⟩
        rw [readChans_length]
        simp only [List.length_cons, List.length_nil]
        omega
      | cons b bs =>
        obtain ⟨hcn, hnd2⟩ := List.nodup_cons.mp hnd
        have hpx2 : ∀ j, Function.update px c (_bitwise_lsb (px c) b) j < 256 := by
          intro j
          by_cases hj : j = c
          · subst hj; rw [Function.update_same]; exact bitwise_lsb_lt _ (hpx _) _
          · rw [Function.update_noteq hj]; exact hpx j
        obtain ⟨g, hg, hlen⟩ := ih cap (Function.update px c (_bitwise_lsb (px c) b)) bs
          hnd2 hpx2 (fun x hx => hb x (List.mem_cons_of_mem _ hx))
        refine ⟨g, ?_, ?_⟩
        · rw [writeChans, readChans,
            writeChans_fst_notmem _ _ _ _ _ hcn, hg, Function.update_same,
            bitwise_lsb_and1 _ (hpx c) _, hb b (List.mem_cons_self _ _)]
          have harith : min (cap + 1) (min ((c :: cs).length) ((b :: bs).length)) =
              min cap (min cs.length bs.length) + 1 := by
            simp only [List.length_cons]; omega
          rw [harith, List.take_succ_cons, List.cons_append]
        · simp only [List.length_cons]
          omega

theorem embedGo_untouched (order : List Nat) (cap : Nat → Nat) (img : FlatImg)
    (bits : List Nat) (q : Nat) (hq : q ∉ order) :
    (embedGo order cap img bits).1 q = img q := by
  induction order generalizing img bits with
  | nil => simp [embedGo]
  | cons p rest ih =>
    have hqr : q ∉ rest := fun h => hq (List.mem_cons_of_mem _ h)
    have hqp : q ≠ p := fun h => hq (h ▸ List.mem_cons_self _ _)
    rw [embedGo]
    by_cases hb : bits = []
    · simp [hb]
    · simp only [hb, if_false]
      by_cases hc : cap p = 0
      · simp only [hc, if_true]; exact ih _ _ hqr
      · simp only [hc, if_false]
        rw [ih _ _ hqr, Function.update_noteq hqp]

theorem embedGo_valid (order : List Nat) (cap : Nat → Nat) (img : FlatImg)
    (bits : List Nat) (himg : ∀ p k, img p k < 256) :
    ∀ p k, (embedGo order cap img bits).1 p k < 256 ∧
      (embedGo order cap img bits).1 p k / 2 = img p k / 2 := by
  induction order generalizing img bits with
  | nil => intro p k; simpa [embedGo] using himg p k
  | cons q rest ih =>
    intro p k
    rw [embedGo]
    by_cases hb : bits = []
    · simpa [hb] using himg p k
    · simp only [hb, if_false]
      by_cases hc : cap q = 0
      · simp only [hc, if_true]; exact ih _ _ himg p k
      · simp only [hc, if_false]
        have himg2 : ∀ r s,
            Function.update img q (writeChans channelOrder (cap q) (img q) bits).1 r s < 256 := by
          intro r s
          by_cases hr : r = q
          · subst hr; rw [Function.update_same]
            exact ((writeChans_fst_div2 _ _ _ _ (himg r)) s).1
          · rw [Function.update_noteq hr]; exact himg r s
        obtain ⟨hlt, hdiv⟩ := ih _ _ himg2 p k
        refine ⟨hlt, hdiv.trans ?_⟩
        by_cases hr : p = q
        · subst hr; rw [Function.update_same]
          exact ((writeChans_fst_div2 _ _ _ _ (himg p)) k).2
        · rw [Function.update_noteq hr]

theorem drop_min_three (bits : List Nat) (a : Nat) :
    bits.drop (min a (min 3 bits.length)) = bits.drop (min a 3) := by
  rcases le_or_lt bits.length (min a 3) with h | h
  · rw [List.drop_eq_nil_of_le (by omega), List.drop_eq_nil_of_le (by omega)]
  · congr 1; omega

theorem embedGo_snd (order : List Nat) (cap : Nat → Nat) (img : FlatImg)
    (bits : List Nat) :
    (embedGo order cap img bits).2 = bits.drop (orderBits order cap) := by
  induction order generalizing img bits with
  | nil => simp [embedGo, orderBits]
  | cons p rest ih =>
    rw [embedGo]
    by_cases hb : bits = []
    · simp [hb]
    · simp only [hb, if_false]
      have hob : orderBits (p :: rest) cap = pixBits (cap p) + orderBits rest cap := by
        simp [orderBits]
      by_cases hc : cap p = 0
      · simp only [hc, if_true]
        rw [ih, hob, hc]
        simp [pixBits]
      · simp only [hc, if_false]
        rw [ih, writeChans_snd]
        have h3 : (channelOrder).length = 3 := by decide
        rw [h3, drop_min_three, List.drop_drop, hob]
        simp [pixBits]

/-- Unfolding helper: the extraction channel loop reads nothing at
capacity zero. -/
theorem readChans_zero (cs : List (Fin 3)) (px : Pix) : readChans cs 0 px = [] := by
  cases cs <;> rfl

/-- Embedding then extracting along the same nodup pixel order yields the
embedded bits as a prefix of the extracted bit list. -/
theorem extract_embed_prefix : ∀ (order : List Nat) (cap : Nat → Nat) (img : FlatImg)
    (bits : List Nat), order.Nodup → (∀ p k, img p k < 256) → (∀ b ∈ bits, b % 2 = b) →
    ∃ g, extractGo order cap (embedGo order cap img bits).1 =
      bits.take (orderBits order cap) ++ g := by
  intro order cap
  induction order with
  | nil =>
    intro img bits hnd himg hb
    exact ⟨[], by simp [embedGo, extractGo, orderBits]⟩
  | cons p rest ih =>
    intro img bits hnd himg hb
    obtain ⟨hpn, hnd2⟩ := List.nodup_cons.mp hnd
    have hob : orderBits (p :: rest) cap = pixBits (cap p) + orderBits rest cap := by
      simp [orderBits]
    rw [embedGo]
    by_cases hbe : bits = []
    · subst hbe
      exact ⟨extractGo (p :: rest) cap img, by simp⟩
    · simp only [hbe, if_false]
      by_cases hc : cap p = 0
      · simp only [hc, if_true]
        obtain ⟨g, hg⟩ := ih img bits hnd2 himg hb
        refine ⟨g, ?_⟩
        rw [extractGo, hc, readChans_zero, hg, hob, hc]
        simp [pixBits]
      · simp only [hc, if_false]
        set px2 := (writeChans channelOrder (cap p) (img p) bits).1 with hpx2def
        set rem := (writeChans channelOrder (cap p) (img p) bits).2 with hremdef
        have himg2 : ∀ r s, Function.update img p px2 r s < 256 := by
          intro r s
          by_cases hr : r = p
          · subst hr; rw [Function.update_same]
            exact ((writeChans_fst_div2 _ _ _ _ (himg _)) s).1
          · rw [Function.update_noteq hr]; exact himg r s
        have h3 : (channelOrder).length = 3 := by decide
        have hrem : rem = bits.drop (pixBits (cap p)) := by
          rw [hremdef, writeChans_snd, h3, drop_min_three]
          rfl
        have hbrem : ∀ b ∈ rem, b % 2 = b := by
          intro x hx
          exact hb x (List.mem_of_mem_drop (hrem ▸ hx))
        obtain ⟨g2, hg2⟩ := ih (Function.update img p px2) rem hnd2 himg2 hbrem
        have hfinalp : (embedGo rest cap (Function.update img p px2) rem).1 p = px2 := by
          rw [embedGo_untouched _ _ _ _ _ hpn, Function.update_same]
        obtain ⟨g1, hg1, hlen1⟩ := readChans_writeChans channelOrder (cap p) (img p) bits
          (by decide) (himg p) hb
        rw [← hpx2def] at hg1
        rw [h3] at hg1 hlen1
        rw [extractGo, hfinalp, hg1]
        rcases le_or_lt (pixBits (cap p)) bits.length with hcase | hcase
        · have hm : min (cap p) (min 3 bits.length) = pixBits (cap p) := by
            simp only [pixBits] at hcase ⊢; omega
          have hg1nil : g1 = [] := by
            apply List.eq_nil_of_length_eq_zero
            rw [hlen1, hm]
            simp only [pixBits]
            omega
          rw [hg2, hrem, hm, hg1nil, List.append_nil, hob]
          exact ⟨g2, by rw [List.take_add, List.append_assoc]⟩
        · have hm : min (cap p) (min 3 bits.length) = bits.length := by
            simp only [pixBits] at hcase; omega
          have hremnil : rem = [] := by
            rw [hrem]
            refine List.drop_eq_nil_of_le ?_
            simp only [pixBits] at hcase ⊢
            omega
          have hble : bits.length ≤ pixBits (cap p) + orderBits rest cap := by
            simp only [pixBits] at hcase ⊢
            omega
          refine ⟨g1 ++ g2, ?_⟩
          rw [hg2, hremnil, hm, List.take_length, hob, List.take_nil,
            List.take_of_length_le hble]
          simp

/-- When the pixel order cannot reach as many bits as the payload holds,
the low-level embedder reports the capacity error (and returns no
stego buffer at all). -/
theorem embed_insufficient (img : FlatImg) (order : List Nat) (cap : Nat → Nat)
    (bits : List Nat) (hlt : orderBits order cap < bits.length) :
    embed_bits_low_level img order cap bits = Except.error msgInsufficientCapacity := by
  unfold embed_bits_low_level
  have hrem : (embedGo order cap img bits).2 = bits.drop (orderBits order cap) :=
    embedGo_snd order cap img bits
  have hne : (embedGo order cap img bits).2 ≠ [] := by
    rw [hrem]
    intro hnil
    have := congrArg List.length hnil
    simp only [List.length_drop, List.length_nil] at this
    omega
  simp [hne]

/-- When the payload fits the reachable capacity, the low-level embedder
succeeds and returns the updated buffer. -/
theorem embed_sufficient (img : FlatImg) (order : List Nat) (cap : Nat → Nat)
    (bits : List Nat) (hle : bits.length ≤ orderBits order cap) :
    embed_bits_low_level img order cap bits =
      Except.ok (embedGo order cap img bits).1 := by
  unfold embed_bits_low_level
  have hrem : (embedGo order cap img bits).2 = bits.drop (orderBits order cap) :=
    embedGo_snd order cap img bits
  have hnil : (embedGo order cap img bits).2 = [] := by
    rw [hrem]
    exact List.drop_eq_nil_of_le hle
  simp [hnil]

/-! ## Byte and bit packing lemmas -/

theorem byteToBits_length (b : Nat) : (byteToBits b).length = 8 := by
  simp [byteToBits]

theorem byteToBits_bits (b : Nat) : ∀ x ∈ byteToBits b, x % 2 = x := by
  intro x hx
  simp only [byteToBits, List.mem_map, List.mem_range] at hx
  obtain ⟨i, _, rfl⟩ := hx
  rw [Nat.and_one_is_mod]
  omega

set_option maxHeartbeats 1000000 in
theorem bitsToByte_byteToBits (b : Nat) (hb : b < 256) :
    bitsToByte (byteToBits b) = b :=
  (by decide : ∀ v : Fin 256, bitsToByte (byteToBits v.val) = v.val) ⟨b, hb⟩

theorem bytes_to_bits_cons (b : Nat) (s : List Nat) :
    bytes_to_bits (b :: s) = byteToBits b ++ bytes_to_bits s := by
  simp [bytes_to_bits]

theorem bytes_to_bits_length (s : List Nat) :
    (bytes_to_bits s).length = 8 * s.length := by
  induction s with
  | nil => rfl
  | cons b s ih =>
    rw [bytes_to_bits_cons]
    simp only [List.length_append, byteToBits_length, ih, List.length_cons]
    ring

theorem bytes_to_bits_bits (s : List Nat) : ∀ x ∈ bytes_to_bits s, x % 2 = x := by
  intro x hx
  simp only [bytes_to_bits, List.mem_flatMap] at hx
  obtain ⟨b, _, hb⟩ := hx
  exact byteToBits_bits b x hb

theorem bits_to_bytes_nil : bits_to_bytes [] = [] := by
  rw [bits_to_bytes]
  simp

theorem bits_to_bytes_block (l g : List Nat) (hl : l.length = 8) :
    bits_to_bytes (l ++ g) = bitsToByte l :: bits_to_bytes g := by
  rw [bits_to_bytes]
  have hlen : (l ++ g).length = 8 + g.length := by simp [hl]
  rw [dif_neg (by omega)]
  congr 1
  · congr 1
    rw [List.take_append_of_le_length (by omega), ← hl, List.take_length]
  · congr 1
    rw [List.drop_append_of_le_length (by omega), ← hl, List.drop_length,
      List.nil_append]

theorem bits_to_bytes_of_bytes (s g : List Nat) (hs : ∀ b ∈ s, b < 256) :
    bits_to_bytes (bytes_to_bits s ++ g) = s ++ bits_to_bytes g := by
  induction s with
  | nil => rfl
  | cons b s ih =>
    rw [bytes_to_bits_cons, List.append_assoc,
      bits_to_bytes_block _ _ (byteToBits_length b),
      bitsToByte_byteToBits b (hs b (List.mem_cons_self _ _)),
      ih (fun x hx => hs x (List.mem_cons_of_mem _ hx))]
    rfl

/-! ## Header lemmas -/

theorem toBytesBE_bytes (n v : Nat) : ∀ b ∈ toBytesBE n v, b < 256 := by
  intro b hb
  simp only [toBytesBE, List.mem_map, List.mem_range] at hb
  obtain ⟨i, _, rfl⟩ := hb
  rw [Nat.and_pow_two_sub_one_eq_mod _ 8]
  exact Nat.mod_lt _ (by norm_num)

theorem toBytesBE_length (n v : Nat) : (toBytesBE n v).length = n := by
  simp [toBytesBE]

theorem MAGIC_bytes : ∀ b ∈ MAGIC, b < 256 := by decide

theorem fromBytesBE_toBytesBE (v : Nat) (hv : v < 2 ^ 32) :
    fromBytesBE (toBytesBE 4 v) = v := by
  have e24 : v >>> 24 &&& 255 = v / 16777216 % 256 := by
    rw [Nat.shiftRight_eq_div_pow]
    exact Nat.and_pow_two_sub_one_eq_mod _ 8
  have e16 : v >>> 16 &&& 255 = v / 65536 % 256 := by
    rw [Nat.shiftRight_eq_div_pow]
    exact Nat.and_pow_two_sub_one_eq_mod _ 8
  have e8 : v >>> 8 &&& 255 = v / 256 % 256 := by
    rw [Nat.shiftRight_eq_div_pow]
    exact Nat.and_pow_two_sub_one_eq_mod _ 8
  have e0 : v >>> 0 &&& 255 = v % 256 := by
    rw [Nat.shiftRight_zero]
    exact Nat.and_pow_two_sub_one_eq_mod _ 8
  have hv32 : v < 4294967296 := by norm_num at hv ⊢; omega
  show fromBytesBE
      ([v >>> (8 * (4 - 1 - 0)) &&& 255, v >>> (8 * (4 - 1 - 1)) &&& 255,
        v >>> (8 * (4 - 1 - 2)) &&& 255, v >>> (8 * (4 - 1 - 3)) &&& 255]) = v
  norm_num
  show ((((0 * 256 + (v >>> 24 &&& 255)) * 256 + (v >>> 16 &&& 255)) * 256 +
      (v >>> 8 &&& 255)) * 256 + (v >>> 0 &&& 255)) = v
  rw [e24, e16, e8, e0]
  omega

theorem validate_header_build (n : Nat) (hd : List Nat)
    (h : build_plain_header n = Except.ok hd) :
    validate_header hd = Except.ok n ∧ hd.length = 7 ∧ n < 2 ^ 32 ∧
      hd = MAGIC ++ toBytesBE 4 n := by
  unfold build_plain_header at h
  by_cases hn : n > MAX_PAYLOAD_LEN
  · simp [hn] at h
  · rw [if_neg hn] at h
    have hhd : hd = MAGIC ++ toBytesBE 4 n := by
      cases h
      rfl
    have hn32 : n < 2 ^ 32 := by
      simp only [MAX_PAYLOAD_LEN] at hn
      omega
    subst hhd
    refine ⟨?_, by simp [MAGIC, toBytesBE_length], hn32, rfl⟩
    unfold validate_header
    have hlen : (MAGIC ++ toBytesBE 4 n).length = 7 := by
      simp [MAGIC, toBytesBE_length]
    have htake : (MAGIC ++ toBytesBE 4 n).take 3 = MAGIC := by
      rw [List.take_append_of_le_length (by simp [MAGIC])]
      rfl
    have hdrop : (MAGIC ++ toBytesBE 4 n).drop 3 = toBytesBE 4 n := by
      rw [List.drop_append_of_le_length (by simp [MAGIC])]
      rfl
    rw [if_neg (by rw [hlen]; simp [HEADER_LEN]), if_neg (by rw [htake]; simp), hdrop,
      fromBytesBE_toBytesBE n hn32]

/-! ## Permutation lemmas for the pixel order -/

theorem cons_set_perm {α : Type} (l : List α) (k : Nat) (a : α) (hk : k < l.length) :
    (l[k] :: l.set k a).Perm (a :: l) := by
  induction l generalizing k with
  | nil => simp at hk
  | cons c t ih =>
    cases k with
    | zero => simpa using List.Perm.swap a c t
    | succ k =>
      have hk2 : k < t.length := by simpa using hk
      have step1 : (t[k] :: c :: t.set k a).Perm (c :: t[k] :: t.set k a) :=
        List.Perm.swap c (t[k]) (t.set k a)
      have step2 : (c :: t[k] :: t.set k a).Perm (c :: a :: t) := (ih k hk2).cons c
      have step3 : (c :: a :: t).Perm (a :: c :: t) := List.Perm.swap a c t
      simpa using (step1.trans step2).trans step3

theorem set_set_perm {α : Type} :
    ∀ (l : List α) (i j : Nat) (hi : i < l.length) (hj : j < l.length),
      ((l.set i l[j]).set j l[i]).Perm l := by
  intro l
  induction l with
  | nil => intro i j hi _; simp at hi
  | cons a t ih =>
    intro i j hi hj
    cases i with
    | zero =>
      cases j with
      | zero => simp
      | succ k =>
        have hk : k < t.length := by simpa using hj
        simpa using cons_set_perm t k a hk
    | succ m =>
      cases j with
      | zero =>
        have hm : m < t.length := by simpa using hi
        simpa using cons_set_perm t m a hm
      | succ k =>
        have hm : m < t.length := by simpa using hi
        have hk : k < t.length := by simpa using hj
        simpa using (ih m k hm hk).cons a

theorem swapList_perm {α : Type} (l : List α) (i j : Nat) : (swapList l i j).Perm l := by
  unfold swapList
  by_cases hi : i < l.length
  · by_cases hj : j < l.length
    · rw [dif_pos hi, dif_pos hj]
      exact set_set_perm l i j hi hj
    · rw [dif_pos hi, dif_neg hj]
  · rw [dif_neg hi]

theorem shuffleFrom_succ (s k : Nat) (l : List Nat) :
    shuffleFrom (k + 1) s l =
      shuffleFrom k (prngNext s) (swapList l (k + 1) (prngNext s % (k + 2))) := rfl

theorem shuffleFrom_perm (k s : Nat) (l : List Nat) : (shuffleFrom k s l).Perm l := by
  induction k generalizing s l with
  | zero => exact List.Perm.refl l
  | succ k ih =>
    rw [shuffleFrom_succ]
    exact (ih (prngNext s) (swapList l (k + 1) (prngNext s % (k + 2)))).trans
      (swapList_perm l (k + 1) (prngNext s % (k + 2)))

theorem shuffleSeeded_perm (seed : Nat) (l : List Nat) : (shuffleSeeded seed l).Perm l :=
  shuffleFrom_perm (l.length - 1) seed l

/-- The pixel order is always a permutation of the flat index range. -/
theorem build_pixel_order_perm {h w : Nat} (e : Fin h → Fin w → ℝ) (seed : List Nat) :
    (build_pixel_order e seed).Perm (List.range (h * w)) := by
  unfold build_pixel_order
  exact (shuffleSeeded_perm _ _).trans
    ((List.reverse_perm _).trans (List.mergeSort_perm _ _))

theorem build_pixel_order_nodup {h w : Nat} (e : Fin h → Fin w → ℝ) (seed : List Nat) :
    (build_pixel_order e seed).Nodup :=
  (build_pixel_order_perm e seed).symm.nodup (List.nodup_range _)

theorem build_pixel_order_mem {h w : Nat} (e : Fin h → Fin w → ℝ) (seed : List Nat)
    (p : Nat) (hp : p ∈ build_pixel_order e seed) : p < h * w := by
  have := (build_pixel_order_perm e seed).mem_iff.mp hp
  simpa using this

/-- The pixel order depends on the seed string only through the 64-bit
integer derived from the first 8 bytes of its SHA-256 digest. -/
theorem build_pixel_order_seed_factor {h w : Nat} (e : Fin h → Fin w → ℝ)
    (s1 s2 : List Nat) (hs : seedInt s1 = seedInt s2) :
    build_pixel_order e s1 = build_pixel_order e s2 := by
  unfold build_pixel_order
  rw [hs]

/-! ## Analysis invariance under LSB-only changes -/

/-- On uint8 values, masking the LSB is determined by the floor half. -/
theorem and_FE_of_div2 (v1 v2 : Nat) (h1 : v1 < 256) (h2 : v2 < 256)
    (hd : v1 / 2 = v2 / 2) : v1 &&& 0xFE = v2 &&& 0xFE := by
  have hfe : ∀ v : Fin 256, v.val &&& 0xFE = 2 * (v.val / 2) := by decide
  rw [hfe ⟨v1, h1⟩, hfe ⟨v2, h2⟩, hd]

/-- The whole texture analysis factors through the LSB-masked gray map:
two images agreeing on all masked channel values share the gray map,
gradient map, entropy map, surface score map and capacity map. -/
theorem analysis_of_masked {h w : Nat} (cover stego : Img h w)
    (hmask : ∀ (y : Fin h) (x : Fin w) (c : Fin 3),
      stego y x c &&& 0xFE = cover y x c &&& 0xFE) :
    grayMap stego = grayMap cover ∧
      compute_normalized_sobel (grayMap stego) = compute_normalized_sobel (grayMap cover) ∧
      entropyMapOf stego = entropyMapOf cover ∧
      surfaceScore stego = surfaceScore cover ∧
      capacityMap stego = capacityMap cover := by
  have hg : grayMap stego = grayMap cover := by
    funext y x
    unfold grayMap
    rw [hmask y x 0, hmask y x 1, hmask y x 2]
  have hsurf : surfaceScore stego = surfaceScore cover := by
    funext y x
    unfold surfaceScore
    rw [hg]
  refine ⟨hg, by rw [hg], ?_, hsurf, ?_⟩
  · funext y x
    unfold entropyMapOf
    rw [hg]
  · funext y x
    unfold capacityMap compute_capacity
    rw [hsurf]

/-! ## Flattening lemmas -/

theorem flatten_valid {h w : Nat} (rgb : Img h w)
    (hv : ∀ y x c, rgb y x c < 256) : ∀ i c, flatten rgb i c < 256 := by
  intro i c
  unfold flatten
  split
  · split
    · exact hv _ _ _
    · omega
  · omega

theorem flatten_at {h w : Nat} (rgb : Img h w) (y : Fin h) (x : Fin w) (c : Fin 3) :
    flatten rgb (y.val * w + x.val) c = rgb y x c := by
  have hw : 0 < w := x.pos
  have hdiv : (y.val * w + x.val) / w = y.val := by
    rw [Nat.add_comm, Nat.add_mul_div_right _ _ hw, Nat.div_eq_of_lt x.isLt,
      Nat.zero_add]
  have hmod : (y.val * w + x.val) % w = x.val := by
    rw [Nat.add_comm, Nat.add_mul_mod_self_right, Nat.mod_eq_of_lt x.isLt]
  unfold flatten
  simp only [hdiv, hmod]
  rw [dif_pos y.isLt, dif_pos x.isLt]

theorem flatMap2_at {h w : Nat} (m : Fin h → Fin w → Nat) (y : Fin h) (x : Fin w) :
    flatMap2 m (y.val * w + x.val) = m y x := by
  have hw : 0 < w := x.pos
  have hdiv : (y.val * w + x.val) / w = y.val := by
    rw [Nat.add_comm, Nat.add_mul_div_right _ _ hw, Nat.div_eq_of_lt x.isLt,
      Nat.zero_add]
  have hmod : (y.val * w + x.val) % w = x.val := by
    rw [Nat.add_comm, Nat.add_mul_mod_self_right, Nat.mod_eq_of_lt x.isLt]
  unfold flatMap2
  simp only [hdiv, hmod]
  rw [dif_pos y.isLt, dif_pos x.isLt]

theorem unflatten_flatten_at {h w : Nat} (f : FlatImg) (i : Nat) (hi : i < h * w)
    (c : Fin 3) : flatten (unflatten h w f) i c = f i c := by
  have hw : 0 < w := by
    rcases Nat.eq_zero_or_pos w with h0 | h0
    · subst h0
      simp at hi
    · exact h0
  have hdivh : i / w < h := by
    rw [Nat.div_lt_iff_lt_mul hw]
    omega
  unfold flatten unflatten
  rw [dif_pos hdivh, dif_pos (Nat.mod_lt _ hw)]
  have hid : (i / w) * w + i % w = i := by
    rw [Nat.mul_comm]
    exact Nat.div_add_mod i w
  simp only [hid]

/-! ## Capacity totals and extraction congruence -/

theorem capacityOfScore_le3 (v : ℝ) : capacityOfScore v ≤ 3 := by
  unfold capacityOfScore
  split_ifs <;> omega

theorem flatMap2_cap_le3 {h w : Nat} (rgb : Img h w) (i : Nat) :
    flatMap2 (capacityMap rgb) i ≤ 3 := by
  unfold flatMap2
  split
  · split
    · exact capacityOfScore_le3 _
    · omega
  · omega

theorem orderBits_eq_capTotal {h w : Nat} (rgb : Img h w) (order : List Nat)
    (horder : order.Perm (List.range (h * w))) :
    orderBits order (flatMap2 (capacityMap rgb)) = capTotal rgb := by
  unfold orderBits capTotal
  have hperm := (horder.map (fun p => pixBits (flatMap2 (capacityMap rgb) p))).sum_eq
  rw [hperm]
  congr 1
  apply List.map_congr_left
  intro a _
  have := flatMap2_cap_le3 rgb a
  simp only [pixBits]
  omega

theorem extractGo_congr (order : List Nat) (cap : Nat → Nat) (img1 img2 : FlatImg)
    (hagree : ∀ p ∈ order, img1 p = img2 p) :
    extractGo order cap img1 = extractGo order cap img2 := by
  induction order with
  | nil => rfl
  | cons p rest ih =>
    rw [extractGo, extractGo, hagree p (List.mem_cons_self _ _),
      ih (fun q hq => hagree q (List.mem_cons_of_mem _ hq))]

/-! ## Slice helpers for envelope parsing -/

theorem take_app_len {α : Type} (l1 l2 : List α) (n : Nat) (hn : l1.length = n) :
    (l1 ++ l2).take n = l1 := by
  subst hn
  exact List.take_left l1 l2

theorem drop_app_len {α : Type} (l1 l2 : List α) (n : Nat) (hn : l1.length = n) :
    (l1 ++ l2).drop n = l2 := by
  subst hn
  exact List.drop_left l1 l2

theorem fromBytesBE_toBytesBE2 (v : Nat) (hv : v < 2 ^ 16) :
    fromBytesBE (toBytesBE 2 v) = v := by
  have e8 : v >>> 8 &&& 255 = v / 256 % 256 := by
    rw [Nat.shiftRight_eq_div_pow]
    exact Nat.and_pow_two_sub_one_eq_mod _ 8
  have e0 : v >>> 0 &&& 255 = v % 256 := by
    rw [Nat.shiftRight_zero]
    exact Nat.and_pow_two_sub_one_eq_mod _ 8
  show fromBytesBE
      [v >>> (8 * (2 - 1 - 0)) &&& 255, v >>> (8 * (2 - 1 - 1)) &&& 255] = v
  norm_num
  show (0 * 256 + (v >>> 8 &&& 255)) * 256 + (v >>> 0 &&& 255) = v
  rw [e8, e0]
  have : v < 65536 := by omega
  omega

/-! ## The embed pipeline: success, LSB-only mutation, analysis
invariance and extracted-prefix recovery -/

theorem embed_pipeline {h w : Nat} (cover : Img h w)
    (hvalid : ∀ y x c, cover y x c < 256) (st seed : List Nat)
    (hst : ∀ b ∈ st, b < 256) (hcap : 8 * st.length ≤ capTotal cover) :
    ∃ F : FlatImg,
      embed_bits_low_level (flatten cover) (build_pixel_order (entropyMapOf cover) seed)
        (flatMap2 (capacityMap cover)) (bytes_to_bits st) = Except.ok F ∧
      (∀ y x c, unflatten h w F y x c < 256) ∧
      entropyMapOf (unflatten h w F) = entropyMapOf cover ∧
      capacityMap (unflatten h w F) = capacityMap cover ∧
      ∃ junk, bits_to_bytes (extractGo (build_pixel_order (entropyMapOf cover) seed)
        (flatMap2 (capacityMap cover)) (flatten (unflatten h w F))) = st ++ junk := by
  set order := build_pixel_order (entropyMapOf cover) seed with horderdef
  set capf := flatMap2 (capacityMap cover) with hcapfdef
  set bits := bytes_to_bits st with hbitsdef
  have horderperm : order.Perm (List.range (h * w)) :=
    build_pixel_order_perm (entropyMapOf cover) seed
  have hnodup : order.Nodup := build_pixel_order_nodup (entropyMapOf cover) seed
  have hfv : ∀ p k, flatten cover p k < 256 := flatten_valid cover hvalid
  have hbitslen : bits.length ≤ orderBits order capf := by
    rw [orderBits_eq_capTotal cover order horderperm, hbitsdef, bytes_to_bits_length]
    omega
  refine ⟨(embedGo order capf (flatten cover) bits).1,
    embed_sufficient _ _ _ _ hbitslen, ?_, ?_, ?_, ?_⟩
  case _ =>
    intro y x c
    exact ((embedGo_valid order capf (flatten cover) bits hfv) _ c).1
  all_goals
    have hmask : ∀ (y : Fin h) (x : Fin w) (c : Fin 3),
        unflatten h w (embedGo order capf (flatten cover) bits).1 y x c &&& 0xFE =
          cover y x c &&& 0xFE := by
      intro y x c
      have hv1 : (embedGo order capf (flatten cover) bits).1 (y.val * w + x.val) c < 256 :=
        ((embedGo_valid order capf (flatten cover) bits hfv) _ c).1
      have hd1 : (embedGo order capf (flatten cover) bits).1 (y.val * w + x.val) c / 2 =
          flatten cover (y.val * w + x.val) c / 2 :=
        ((embedGo_valid order capf (flatten cover) bits hfv) _ c).2
      have : unflatten h w (embedGo order capf (flatten cover) bits).1 y x c / 2 =
          cover y x c / 2 := by
        show (embedGo order capf (flatten cover) bits).1 (y.val * w + x.val) c / 2 = _
        rw [hd1, flatten_at]
      exact and_FE_of_div2 _ _ hv1 (hvalid y x c) this
  case _ => exact (analysis_of_masked cover _ hmask).2.2.1
  case _ => exact (analysis_of_masked cover _ hmask).2.2.2.2
  case _ =>
    have hagree : ∀ p ∈ order, flatten (unflatten h w
        (embedGo order capf (flatten cover) bits).1) p =
        (embedGo order capf (flatten cover) bits).1 p := by
      intro p hp
      funext c
      exact unflatten_flatten_at _ p
        (build_pixel_order_mem (entropyMapOf cover) seed p hp) c
    rw [extractGo_congr order capf _ _ hagree]
    obtain ⟨g, hg⟩ := extract_embed_prefix order capf (flatten cover) bits hnodup hfv
      (bytes_to_bits_bits st)
    rw [hg, List.take_of_length_le hbitslen, hbitsdef]
    exact ⟨bits_to_bytes g, bits_to_bytes_of_bytes st g hst⟩

/-! ## Envelope parse lemmas: each parser recovers what the matching
builder laid out, also in the presence of trailing junk bytes -/

theorem decrypt_plain_parse (payload junk hdr : List Nat)
    (hhdr : build_plain_header payload.length = Except.ok hdr) :
    _decrypt_plain_stream ((MODE_NONE :: (hdr ++ payload)) ++ junk) = Except.ok payload := by
  obtain ⟨hval, hlen7, _, _⟩ := validate_header_build _ _ hhdr
  have hshape : (MODE_NONE :: (hdr ++ payload)) ++ junk =
      MODE_NONE :: (hdr ++ (payload ++ junk)) := by
    simp
  rw [hshape]
  unfold _decrypt_plain_stream
  have h1 : ((MODE_NONE :: (hdr ++ (payload ++ junk))).drop 1).take HEADER_LEN = hdr := by
    rw [List.drop_one, List.tail_cons]
    exact take_app_len _ _ _ hlen7
  rw [h1, hval]
  have hdrop8 : (MODE_NONE :: (hdr ++ (payload ++ junk))).drop 8 = payload ++ junk := by
    rw [List.drop_succ_cons]
    exact drop_app_len _ _ _ hlen7
  rw [hdrop8]
  show Except.ok (List.take payload.length (payload ++ junk)) = Except.ok payload
  rw [take_app_len _ _ _ rfl]

theorem decrypt_sym_parse (C : CryptoOps) (pw salt nonce ct junk hdr : List Nat)
    (hhdr : build_plain_header ct.length = Except.ok hdr)
    (hsalt : salt.length = SALT_LEN) (hnonce : nonce.length = NONCE_LEN) :
    _decrypt_symmetric_stream C
      ((MODE_SYMMETRIC :: (hdr ++ salt ++ nonce ++ ct)) ++ junk) pw =
      C.aesDec (C.kdf pw salt) nonce ct := by
  obtain ⟨hval, hlen7, _, _⟩ := validate_header_build _ _ hhdr
  have hshape : (MODE_SYMMETRIC :: (hdr ++ salt ++ nonce ++ ct)) ++ junk =
      MODE_SYMMETRIC :: (hdr ++ (salt ++ (nonce ++ (ct ++ junk)))) := by
    simp
  rw [hshape]
  set X := MODE_SYMMETRIC :: (hdr ++ (salt ++ (nonce ++ (ct ++ junk)))) with hX
  unfold _decrypt_symmetric_stream
  have h1 : (X.drop 1).take HEADER_LEN = hdr := by
    rw [hX, List.drop_one, List.tail_cons]
    exact take_app_len _ _ _ hlen7
  rw [h1, hval]
  show (if X.length < 36 + ct.length then Except.error msgCiphertextTruncated
    else C.aesDec (C.kdf pw ((X.drop 8).take SALT_LEN)) ((X.drop 24).take NONCE_LEN)
      ((X.drop 36).take ct.length)) = C.aesDec (C.kdf pw salt) nonce ct
  have hXlen : X.length = 36 + ct.length + junk.length := by
    rw [hX]
    simp only [List.length_cons, List.length_append, hlen7, hsalt, hnonce,
      SALT_LEN, NONCE_LEN]
    omega
  rw [if_neg (by omega)]
  have hsaltS : (X.drop 8).take SALT_LEN = salt := by
    rw [hX, List.drop_succ_cons, drop_app_len _ _ _ hlen7]
    exact take_app_len _ _ _ hsalt
  have hnonceS : (X.drop 24).take NONCE_LEN = nonce := by
    rw [hX, List.drop_succ_cons, show (23 : Nat) = 7 + 16 from rfl, ← List.drop_drop,
      drop_app_len _ _ _ hlen7, drop_app_len _ _ _ (show salt.length = 16 from hsalt)]
    exact take_app_len _ _ _ hnonce
  have hctS : (X.drop 36).take ct.length = ct := by
    rw [hX, List.drop_succ_cons, show (35 : Nat) = 7 + 28 from rfl, ← List.drop_drop,
      drop_app_len _ _ _ hlen7, show (28 : Nat) = 16 + 12 from rfl, ← List.drop_drop,
      drop_app_len _ _ _ (show salt.length = 16 from hsalt),
      drop_app_len _ _ _ (show nonce.length = 12 from hnonce)]
    exact take_app_len _ _ _ rfl
  rw [hsaltS, hnonceS, hctS]

theorem decrypt_asym_parse (C : CryptoOps) (sk : C.PrivKey) (K ek nonce ct junk hdr : List Nat)
    (hhdr : build_plain_header ct.length = Except.ok hdr)
    (hek : ek.length < 2 ^ 16) (hnonce : nonce.length = NONCE_LEN)
    (hrsa : C.rsaDec sk ek = Except.ok K) :
    _decrypt_asymmetric_stream C
      ((MODE_ASYMMETRIC :: (hdr ++ toBytesBE 2 ek.length ++ ek ++ nonce ++ ct)) ++ junk) sk =
      C.aesDec K nonce ct := by
  obtain ⟨hval, hlen7, _, _⟩ := validate_header_build _ _ hhdr
  have hekb : (toBytesBE 2 ek.length).length = 2 := toBytesBE_length 2 _
  have hshape : (MODE_ASYMMETRIC :: (hdr ++ toBytesBE 2 ek.length ++ ek ++ nonce ++ ct)) ++ junk =
      MODE_ASYMMETRIC :: (hdr ++ (toBytesBE 2 ek.length ++ (ek ++ (nonce ++ (ct ++ junk))))) := by
    simp
  rw [hshape]
  set X := MODE_ASYMMETRIC :: (hdr ++ (toBytesBE 2 ek.length ++ (ek ++ (nonce ++ (ct ++ junk)))))
    with hX
  unfold _decrypt_asymmetric_stream
  have h1 : (X.drop 1).take HEADER_LEN = hdr := by
    rw [hX, List.drop_one, List.tail_cons]
    exact take_app_len _ _ _ hlen7
  rw [h1, hval]
  show (if X.length < 22 + fromBytesBE ((X.drop 8).take 2) + ct.length
    then Except.error msgCiphertextTruncated
    else match C.rsaDec sk ((X.drop 10).take (fromBytesBE ((X.drop 8).take 2))) with
      | Except.error e => Except.error e
      | Except.ok symKey =>
          C.aesDec symKey
            ((X.drop (10 + fromBytesBE ((X.drop 8).take 2))).take NONCE_LEN)
            ((X.drop (22 + fromBytesBE ((X.drop 8).take 2))).take ct.length)) =
    C.aesDec K nonce ct
  have hekL : fromBytesBE ((X.drop 8).take 2) = ek.length := by
    rw [hX, List.drop_succ_cons, drop_app_len _ _ _ hlen7, take_app_len _ _ _ hekb]
    exact fromBytesBE_toBytesBE2 _ hek
  rw [hekL]
  have hXlen : X.length = 22 + ek.length + ct.length + junk.length := by
    rw [hX]
    simp only [List.length_cons, List.length_append, hlen7, hekb, hnonce, NONCE_LEN]
    omega
  rw [if_neg (by omega)]
  have hekS : (X.drop 10).take ek.length = ek := by
    rw [hX, List.drop_succ_cons, show (9 : Nat) = 7 + 2 from rfl, ← List.drop_drop,
      drop_app_len _ _ _ hlen7, drop_app_len _ _ _ hekb]
    exact take_app_len _ _ _ rfl
  have hnonceS : (X.drop (10 + ek.length)).take NONCE_LEN = nonce := by
    rw [hX, show 10 + ek.length = (9 + ek.length) + 1 from by omega, List.drop_succ_cons,
      show 9 + ek.length = 7 + (2 + ek.length) from by omega, ← List.drop_drop,
      drop_app_len _ _ _ hlen7, ← List.drop_drop, drop_app_len _ _ _ hekb,
      drop_app_len _ _ _ rfl]
    exact take_app_len _ _ _ hnonce
  have hctS : (X.drop (22 + ek.length)).take ct.length = ct := by
    rw [hX, show 22 + ek.length = (21 + ek.length) + 1 from by omega, List.drop_succ_cons,
      show 21 + ek.length = 7 + (2 + (ek.length + 12)) from by omega, ← List.drop_drop,
      drop_app_len _ _ _ hlen7, ← List.drop_drop, drop_app_len _ _ _ hekb,
      ← List.drop_drop, drop_app_len _ _ _ rfl,
      drop_app_len _ _ _ (show nonce.length = 12 from hnonce)]
    exact take_app_len _ _ _ rfl
  rw [hekS, hrsa, hnonceS, hctS]

/-! ## Round trip of the full pipeline -/

theorem lsbppEmbed_eq (C : CryptoOps) (rnd : EmbedRandomness) {h w : Nat}
    (cover : Img h w) (payload : List Nat) (cred : EmbedCred C) (st seed : List Nat)
    (hstream : buildStream C rnd payload cred = Except.ok (st, seed)) :
    lsbppEmbed C rnd cover payload cred =
      match embed_bits_low_level (flatten cover) (build_pixel_order (entropyMapOf cover) seed)
        (flatMap2 (capacityMap cover)) (bytes_to_bits st) with
      | Except.error e => Except.error e
      | Except.ok flat => Except.ok (unflatten h w flat) := by
  unfold lsbppEmbed
  rw [hstream]

theorem headD_cons_append (m : Nat) (X junk : List Nat) :
    ((m :: X) ++ junk).headD 0 = m := by
  simp

theorem cons_append_ne_nil (m : Nat) (X junk : List Nat) : (m :: X) ++ junk ≠ [] := by
  simp

theorem dispatchDecrypt_expand (C : CryptoOps) (cred : ExtractCred C) (sb : List Nat) :
    dispatchDecrypt C cred sb =
      match (if sb.headD 0 = MODE_SYMMETRIC then
          match cred with
          | ExtractCred.password pw => _decrypt_symmetric_stream C sb pw
          | _ => Except.error msgMismatchSym
        else if sb.headD 0 = MODE_ASYMMETRIC then
          match cred with
          | ExtractCred.privateKey sk => _decrypt_asymmetric_stream C sb sk
          | _ => Except.error msgMismatchAsym
        else if sb.headD 0 = MODE_NONE then _decrypt_plain_stream sb
        else Except.error msgUnknownMode) with
      | Except.ok v => Except.ok v
      | Except.error e => Except.error (msgDecryptPrefix ++ e) := rfl

theorem lsbppExtractCore_eq (C : CryptoOps) {h w : Nat} (stego : Img h w)
    (cred : ExtractCred C) (sb : List Nat)
    (hsb : bits_to_bytes (extract_bits_low_level (flatten stego)
      (build_pixel_order (entropyMapOf stego) (seedForExtract C cred))
      (flatMap2 (capacityMap stego))) = sb)
    (hne : sb ≠ []) :
    lsbppExtractCore C stego cred = dispatchDecrypt C cred sb := by
  unfold lsbppExtractCore
  show (if bits_to_bytes (extract_bits_low_level (flatten stego)
      (build_pixel_order (entropyMapOf stego) (seedForExtract C cred))
      (flatMap2 (capacityMap stego))) = [] then Except.error msgNoData
    else dispatchDecrypt C cred (bits_to_bytes (extract_bits_low_level (flatten stego)
      (build_pixel_order (entropyMapOf stego) (seedForExtract C cred))
      (flatMap2 (capacityMap stego))))) = dispatchDecrypt C cred sb
  rw [hsb, if_neg hne]

/-- C1: payload round trip of the LSB++ pipeline.  For any cover image,
any matched credential (none, password, or public-key pair satisfying
the collaborator assumptions) and any payload whose built envelope
stream fits the finalized capacity map, embedding succeeds and
extraction returns exactly the payload. -/
theorem lsbpp_round_trip (C : CryptoOps) (rnd : EmbedRandomness) {h w : Nat}
    (cover : Img h w) (payload : List Nat) (cred : CredPair C)
    (hvalid : ∀ y x c, cover y x c < 256) (hpay : ∀ b ∈ payload, b < 256)
    (hok : CredOK C rnd cred) (st seed : List Nat)
    (hstream : buildStream C rnd payload (embedSide cred) = Except.ok (st, seed))
    (hcap : 8 * st.length ≤ capTotal cover) :
    ∃ stego : Img h w,
      lsbppEmbed C rnd cover payload (embedSide cred) = Except.ok stego ∧
      lsbppExtract C stego (extractSide cred) = Except.ok payload := by
  cases cred with
  | plain =>
    simp only [embedSide, extractSide] at hstream ⊢
    unfold buildStream at hstream
    cases hh : build_plain_header payload.length with
    | error e => rw [hh] at hstream; exact absurd hstream (by simp)
    | ok hdr =>
      rw [hh] at hstream
      have hpair : MODE_NONE :: (hdr ++ payload) = st ∧ defaultSeed = seed := by
        have := hstream
        simp only [Except.ok.injEq, Prod.mk.injEq] at this
        exact this
      obtain ⟨hst, hseed⟩ := hpair
      obtain ⟨hval, hlen7, hlt32, hhdrshape⟩ := validate_header_build _ _ hh
      have hstbytes : ∀ b ∈ st, b < 256 := by
        intro b hb
        rw [← hst] at hb
        rcases List.mem_cons.mp hb with hb1 | hb2
        · subst hb1; decide
        · rcases List.mem_append.mp hb2 with hb3 | hb4
          · rw [hhdrshape] at hb3
            rcases List.mem_append.mp hb3 with hb5 | hb6
            · exact MAGIC_bytes b hb5
            · exact toBytesBE_bytes _ _ _ hb6
          · exact hpay b hb4
      obtain ⟨F, hemb, hFvalid, hent, hcapm, junk, hjunk⟩ :=
        embed_pipeline cover hvalid st seed hstbytes hcap
      refine ⟨unflatten h w F, ?_, ?_⟩
      · rw [lsbppEmbed_eq C rnd cover payload EmbedCred.plain st seed
          (by unfold buildStream
              rw [hh]
              show Except.ok (MODE_NONE :: (hdr ++ payload), defaultSeed) = Except.ok (st, seed)
              rw [hst, hseed])]
        rw [hemb]
      · show lsbppExtract C (unflatten h w F) ExtractCred.plain = Except.ok payload
        have hcore : lsbppExtract C (unflatten h w F) ExtractCred.plain =
            lsbppExtractCore C (unflatten h w F) ExtractCred.plain := rfl
        rw [hcore]
        have hseedex : seedForExtract C (ExtractCred.plain : ExtractCred C) = seed := by
          unfold seedForExtract
          exact hseed
        have hsb : bits_to_bytes (extract_bits_low_level (flatten (unflatten h w F))
            (build_pixel_order (entropyMapOf (unflatten h w F))
              (seedForExtract C (ExtractCred.plain : ExtractCred C)))
            (flatMap2 (capacityMap (unflatten h w F)))) = st ++ junk := by
          rw [hseedex, hent, hcapm]
          exact hjunk
        rw [lsbppExtractCore_eq C _ _ _ hsb (by rw [← hst]; exact cons_append_ne_nil _ _ _)]
        rw [← hst]
        rw [dispatchDecrypt_expand, headD_cons_append]
        rw [if_neg (by decide), if_neg (by decide), if_pos rfl]
        rw [decrypt_plain_parse payload junk hdr hh]
  | password pw =>
    obtain ⟨hpwne, hsaltlen, hnoncelen, hsaltb, hnonceb, haes, haesb⟩ := hok
    simp only [embedSide, extractSide] at hstream ⊢
    have hstreamOrig := hstream
    unfold buildStream at hstream
    have hstream2 : (if pw = [] then
        (Except.error msgEmptyPassword : Except String (List Nat × List Nat))
      else match _build_symmetric_stream C rnd pw payload with
        | Except.error e => Except.error e
        | Except.ok stream => Except.ok (stream, pw)) = Except.ok (st, seed) := hstream
    rw [if_neg hpwne] at hstream2
    have hstream3 : (match (match build_plain_header
          (C.aesEnc (C.kdf pw rnd.salt) rnd.nonce payload).length with
        | Except.error e => (Except.error e : Except String (List Nat))
        | Except.ok header => Except.ok (MODE_SYMMETRIC :: (header ++ rnd.salt ++ rnd.nonce ++
            C.aesEnc (C.kdf pw rnd.salt) rnd.nonce payload))) with
      | Except.error e => Except.error e
      | Except.ok stream => Except.ok (stream, pw)) = Except.ok (st, seed) := hstream2
    cases hh : build_plain_header (C.aesEnc (C.kdf pw rnd.salt) rnd.nonce payload).length with
    | error e =>
      rw [hh] at hstream3
      exact absurd hstream3 (by simp)
    | ok hdr =>
      rw [hh] at hstream3
      have hpair : MODE_SYMMETRIC :: (hdr ++ rnd.salt ++ rnd.nonce ++
          C.aesEnc (C.kdf pw rnd.salt) rnd.nonce payload) = st ∧ pw = seed := by
        have hthis := hstream3
        simp only [Except.ok.injEq, Prod.mk.injEq] at hthis
        exact hthis
      obtain ⟨hst, hseed⟩ := hpair
      obtain ⟨hval, hlen7, hlt32, hhdrshape⟩ := validate_header_build _ _ hh
      have hstbytes : ∀ b ∈ st, b < 256 := by
        intro b hb
        rw [← hst] at hb
        rcases List.mem_cons.mp hb with hb1 | hb2
        · subst hb1; decide
        · rcases List.mem_append.mp hb2 with hb3 | hb4
          · rcases List.mem_append.mp hb3 with hb5 | hb6
            · rcases List.mem_append.mp hb5 with hb7 | hb8
              · rw [hhdrshape] at hb7
                rcases List.mem_append.mp hb7 with hb9 | hb10
                · exact MAGIC_bytes b hb9
                · exact toBytesBE_bytes _ _ _ hb10
              · exact hsaltb b hb8
            · exact hnonceb b hb6
          · exact haesb _ _ _ b hb4
      obtain ⟨F, hemb, hFvalid, hent, hcapm, junk, hjunk⟩ :=
        embed_pipeline cover hvalid st seed hstbytes hcap
      refine ⟨unflatten h w F, ?_, ?_⟩
      · rw [lsbppEmbed_eq C rnd cover payload (EmbedCred.password pw) st seed hstreamOrig]
        rw [hemb]
      · have hcore : lsbppExtract C (unflatten h w F) (ExtractCred.password pw) =
            lsbppExtractCore C (unflatten h w F) (ExtractCred.password pw) := by
          show (if pw = [] then Except.error msgPasswordRequired
            else lsbppExtractCore C (unflatten h w F) (ExtractCred.password pw)) =
            lsbppExtractCore C (unflatten h w F) (ExtractCred.password pw)
          rw [if_neg hpwne]
        rw [hcore]
        have hseedex : seedForExtract C (ExtractCred.password pw) = seed := hseed
        have hsb : bits_to_bytes (extract_bits_low_level (flatten (unflatten h w F))
            (build_pixel_order (entropyMapOf (unflatten h w F))
              (seedForExtract C (ExtractCred.password pw)))
            (flatMap2 (capacityMap (unflatten h w F)))) = st ++ junk := by
          rw [hseedex, hent, hcapm]
          exact hjunk
        rw [lsbppExtractCore_eq C _ _ _ hsb (by rw [← hst]; exact cons_append_ne_nil _ _ _)]
        rw [← hst]
        rw [dispatchDecrypt_expand, headD_cons_append]
        rw [if_pos rfl]
        show (match _decrypt_symmetric_stream C ((MODE_SYMMETRIC :: (hdr ++ rnd.salt ++
            rnd.nonce ++ C.aesEnc (C.kdf pw rnd.salt) rnd.nonce payload)) ++ junk) pw with
          | Except.ok v => Except.ok v
          | Except.error e => Except.error (msgDecryptPrefix ++ e)) = Except.ok payload
        rw [decrypt_sym_parse C pw rnd.salt rnd.nonce _ junk hdr hh hsaltlen hnoncelen]
        rw [haes]
  | keypair pk sk =>
    obtain ⟨hnoncelen, hnonceb, hderive, hrsa, hrsab, haes, haesb⟩ := hok
    simp only [embedSide, extractSide] at hstream ⊢
    have hstreamOrig := hstream
    unfold buildStream at hstream
    have hstream2 : (match _build_asymmetric_stream C rnd pk payload with
        | Except.error e => Except.error e
        | Except.ok r => Except.ok (r.1, asymSeedPrefix ++ r.2)) =
          Except.ok (st, seed) := hstream
    have hstream3 : (match (match build_plain_header
          (C.aesEnc rnd.symKey rnd.nonce payload).length with
        | Except.error e => (Except.error e : Except String (List Nat × List Nat))
        | Except.ok header =>
            if (C.rsaEnc pk rnd.symKey).length ≥ 2 ^ 16 then Except.error msgEkTooLarge
            else Except.ok (MODE_ASYMMETRIC :: (header ++
              toBytesBE 2 (C.rsaEnc pk rnd.symKey).length ++ C.rsaEnc pk rnd.symKey ++
              rnd.nonce ++ C.aesEnc rnd.symKey rnd.nonce payload), C.fingerprintPK pk)) with
      | Except.error e => Except.error e
      | Except.ok r => Except.ok (r.1, asymSeedPrefix ++ r.2)) =
        Except.ok (st, seed) := hstream2
    cases hh : build_plain_header (C.aesEnc rnd.symKey rnd.nonce payload).length with
    | error e =>
      rw [hh] at hstream3
      exact absurd hstream3 (by simp)
    | ok hdr =>
      rw [hh] at hstream3
      have hstream4 : (match (if (C.rsaEnc pk rnd.symKey).length ≥ 2 ^ 16 then
            (Except.error msgEkTooLarge : Except String (List Nat × List Nat))
          else Except.ok (MODE_ASYMMETRIC :: (hdr ++
            toBytesBE 2 (C.rsaEnc pk rnd.symKey).length ++ C.rsaEnc pk rnd.symKey ++
            rnd.nonce ++ C.aesEnc rnd.symKey rnd.nonce payload), C.fingerprintPK pk)) with
          | Except.error e => Except.error e
          | Except.ok r => Except.ok (r.1, asymSeedPrefix ++ r.2)) =
            Except.ok (st, seed) := hstream3
      by_cases heklen : (C.rsaEnc pk rnd.symKey).length ≥ 2 ^ 16
      · rw [if_pos heklen] at hstream4
        exact absurd hstream4 (by simp)
      · rw [if_neg heklen] at hstream4
        have hpair : MODE_ASYMMETRIC :: (hdr ++ toBytesBE 2 (C.rsaEnc pk rnd.symKey).length ++
            C.rsaEnc pk rnd.symKey ++ rnd.nonce ++
            C.aesEnc rnd.symKey rnd.nonce payload) = st ∧
            asymSeedPrefix ++ C.fingerprintPK pk = seed := by
          have hthis := hstream4
          simp only [Except.ok.injEq, Prod.mk.injEq] at hthis
          exact hthis
        obtain ⟨hst, hseed⟩ := hpair
        obtain ⟨hval, hlen7, hlt32, hhdrshape⟩ := validate_header_build _ _ hh
        have hstbytes : ∀ b ∈ st, b < 256 := by
          intro b hb
          rw [← hst] at hb
          rcases List.mem_cons.mp hb with hb1 | hb2
          · subst hb1; decide
          · rcases List.mem_append.mp hb2 with hb3 | hb4
            · rcases List.mem_append.mp hb3 with hb5 | hb6
              · rcases List.mem_append.mp hb5 with hb7 | hb8
                · rcases List.mem_append.mp hb7 with hb9 | hb10
                  · rw [hhdrshape] at hb9
                    rcases List.mem_append.mp hb9 with hb11 | hb12
                    · exact MAGIC_bytes b hb11
                    · exact toBytesBE_bytes _ _ _ hb12
                  · exact toBytesBE_bytes _ _ _ hb10
                · exact hrsab b hb8
              · exact hnonceb b hb6
            · exact haesb _ _ _ b hb4
        obtain ⟨F, hemb, hFvalid, hent, hcapm, junk, hjunk⟩ :=
          embed_pipeline cover hvalid st seed hstbytes hcap
        refine ⟨unflatten h w F, ?_, ?_⟩
        · rw [lsbppEmbed_eq C rnd cover payload (EmbedCred.publicKey pk) st seed hstreamOrig]
          rw [hemb]
        · have hcore : lsbppExtract C (unflatten h w F) (ExtractCred.privateKey sk) =
              lsbppExtractCore C (unflatten h w F) (ExtractCred.privateKey sk) := rfl
          rw [hcore]
          have hseedex : seedForExtract C (ExtractCred.privateKey sk) = seed := by
            show asymSeedPrefix ++ C.fingerprintPK (C.derivePub sk) = seed
            rw [hderive, hseed]
          have hsb : bits_to_bytes (extract_bits_low_level (flatten (unflatten h w F))
              (build_pixel_order (entropyMapOf (unflatten h w F))
                (seedForExtract C (ExtractCred.privateKey sk)))
              (flatMap2 (capacityMap (unflatten h w F)))) = st ++ junk := by
            rw [hseedex, hent, hcapm]
            exact hjunk
          rw [lsbppExtractCore_eq C _ _ _ hsb
            (by rw [← hst]; exact cons_append_ne_nil _ _ _)]
          rw [← hst]
          rw [dispatchDecrypt_expand, headD_cons_append]
          rw [if_neg (by decide), if_pos rfl]
          show (match _decrypt_asymmetric_stream C ((MODE_ASYMMETRIC :: (hdr ++
              toBytesBE 2 (C.rsaEnc pk rnd.symKey).length ++ C.rsaEnc pk rnd.symKey ++
              rnd.nonce ++ C.aesEnc rnd.symKey rnd.nonce payload)) ++ junk) sk with
            | Except.ok v => Except.ok v
            | Except.error e => Except.error (msgDecryptPrefix ++ e)) = Except.ok payload
          rw [decrypt_asym_parse C sk rnd.symKey (C.rsaEnc pk rnd.symKey) rnd.nonce _ junk hdr
            hh (by omega) hnoncelen hrsa]
          rw [haes]

/-! ## Concrete analysis of the striped witness cover -/

theorem grayMap_stripe (y : Fin 4) (x : Fin 20) :
    grayMap stripeImg y x = ((stripeVal x.val : Nat) : ℝ) := by
  have hv : stripeVal x.val &&& 0xFE = stripeVal x.val := by
    unfold stripeVal
    split <;> rfl
  unfold grayMap stripeImg
  rw [hv]
  ring

theorem abs_stripe (xv : Nat) (hx : xv < 20) :
    |4 * ((stripeVal (min (xv + 1) 19) : Nat) : ℝ) - 4 * ((stripeVal (xv - 1) : Nat) : ℝ)| =
      ((magStripe xv : Nat) : ℝ) := by
  by_cases h0 : xv = 0
  · subst h0
    norm_num [stripeVal, magStripe]
  · by_cases h19 : xv = 19
    · subst h19
      norm_num [stripeVal, magStripe]
    · have h1 : 1 ≤ xv := by omega
      have h18 : xv ≤ 18 := by omega
      have hmin : min (xv + 1) 19 = xv + 1 := by omega
      have hmag : magStripe xv = 1016 := by
        unfold magStripe
        rw [if_pos ⟨h1, h18⟩]
      rw [hmin, hmag]
      by_cases hp : (xv + 1) % 4 < 2
      · have hq : ¬ ((xv - 1) % 4 < 2) := by omega
        unfold stripeVal
        rw [if_pos hp, if_neg hq]
        rw [show 4 * (((0 : Nat) : ℝ)) - 4 * (((254 : Nat) : ℝ)) = -1016 by push_cast; ring]
        rw [abs_neg, abs_of_nonneg (by norm_num : (0:ℝ) ≤ 1016)]
        norm_num
      · have hq : (xv - 1) % 4 < 2 := by omega
        unfold stripeVal
        rw [if_neg hp, if_pos hq]
        rw [show 4 * (((254 : Nat) : ℝ)) - 4 * (((0 : Nat) : ℝ)) = 1016 by push_cast; ring]
        norm_num

theorem sobel_stripe (y : Fin 4) (x : Fin 20) :
    sobelMag (grayMap stripeImg) y x = ((magStripe x.val : Nat) : ℝ) := by
  unfold sobelMag
  simp only [grayMap_stripe]
  rw [show ∀ a c d : ℝ, (c + 2 * c + c - (a + 2 * a + a)) ^ 2 +
      (a + 2 * d + c - (a + 2 * d + c)) ^ 2 = (4 * c - 4 * a) ^ 2 from
    fun a c d => by ring]
  rw [Real.sqrt_sq_eq_abs]
  exact abs_stripe x.val x.isLt

theorem sobelMin_stripe (y : Fin 4) (x : Fin 20) :
    sobelMin (grayMap stripeImg) y x = 0 := by
  unfold sobelMin
  apply le_antisymm
  · have hle := Finset.inf'_le
      (fun p : Fin 4 × Fin 20 => sobelMag (grayMap stripeImg) p.1 p.2)
      (Finset.mem_univ ((0 : Fin 4), (0 : Fin 20)))
    rw [sobel_stripe] at hle
    simpa [magStripe] using hle
  · apply Finset.le_inf'
    intro p _
    rw [sobel_stripe]
    exact Nat.cast_nonneg _

theorem sobelMax_stripe (y : Fin 4) (x : Fin 20) :
    sobelMax (grayMap stripeImg) y x = 1016 := by
  unfold sobelMax
  apply le_antisymm
  · apply Finset.sup'_le
    intro p _
    rw [sobel_stripe]
    have hb : magStripe p.2.val ≤ 1016 := by
      unfold magStripe
      split <;> omega
    exact_mod_cast hb
  · have hge := Finset.le_sup'
      (fun p : Fin 4 × Fin 20 => sobelMag (grayMap stripeImg) p.1 p.2)
      (Finset.mem_univ ((0 : Fin 4), (⟨1, by omega⟩ : Fin 20)))
    rw [sobel_stripe] at hge
    simpa [magStripe] using hge

theorem gradNorm_stripe (y : Fin 4) (x : Fin 20) (h1 : 1 ≤ x.val) (h2 : x.val ≤ 18) :
    compute_normalized_sobel (grayMap stripeImg) y x = 1 := by
  unfold compute_normalized_sobel
  simp only [sobelMin_stripe, sobelMax_stripe, sobel_stripe]
  have hmag : magStripe x.val = 1016 := by
    unfold magStripe
    rw [if_pos ⟨h1, h2⟩]
  rw [hmag]
  norm_num

theorem entropy_nonneg {h w : Nat} (g : Fin h → Fin w → ℝ) (y : Fin h) (x : Fin w) :
    0 ≤ compute_local_entropy g y x := by
  unfold compute_local_entropy
  exact le_min (by norm_num) (le_max_left _ _)

theorem surface_stripe (y : Fin 4) (x : Fin 20) (h1 : 1 ≤ x.val) (h2 : x.val ≤ 18) :
    (0.25 : ℝ) < surfaceScore stripeImg y x := by
  unfold surfaceScore
  rw [gradNorm_stripe y x h1 h2]
  have he := entropy_nonneg (grayMap stripeImg) y x
  have hinner : (0.6 : ℝ) ≤ 0.6 * 1 + 0.4 * compute_local_entropy (grayMap stripeImg) y x := by
    nlinarith
  have hmx : (0.6 : ℝ) ≤ max 0 (0.6 * 1 + 0.4 * compute_local_entropy (grayMap stripeImg) y x) :=
    le_trans hinner (le_max_right _ _)
  have hmn : (0.6 : ℝ) ≤ min 1 (max 0 (0.6 * 1 + 0.4 *
      compute_local_entropy (grayMap stripeImg) y x)) :=
    le_min (by norm_num) hmx
  linarith

theorem capacityOfScore_ge2 (s : ℝ) (hs : 0.25 < s) : 2 ≤ capacityOfScore s := by
  unfold capacityOfScore
  split_ifs <;> omega

theorem capTotal_stripe : 144 ≤ capTotal stripeImg := by
  unfold capTotal
  rw [show (4 * 20 : Nat) = 80 from rfl]
  have hle : ((List.range 80).map lbStripe).sum ≤
      ((List.range 80).map (flatMap2 (capacityMap stripeImg))).sum := by
    apply List.sum_le_sum
    intro i hi
    have hi80 : i < 80 := List.mem_range.mp hi
    by_cases hmid : 1 ≤ i % 20 ∧ i % 20 ≤ 18
    · have hlb : lbStripe i = 2 := if_pos hmid
      rw [hlb]
      have hdy : i / 20 < 4 := by omega
      have hdx : i % 20 < 20 := by omega
      unfold flatMap2
      rw [dif_pos hdy, dif_pos hdx]
      exact capacityOfScore_ge2 _ (surface_stripe ⟨i / 20, hdy⟩ ⟨i % 20, hdx⟩ hmid.1 hmid.2)
    · have hlb : lbStripe i = 0 := if_neg hmid
      rw [hlb]
      exact Nat.zero_le _
  have hsum : ((List.range 80).map lbStripe).sum = 144 := by decide
  omega

/-! ## Concrete analysis of the uniform mid-gray 64x64 image -/

theorem gray_uniform (y : Fin 64) (x : Fin 64) :
    grayMap uniformGray64 y x = 128 := by
  unfold grayMap uniformGray64
  rw [show (128 &&& 0xFE : Nat) = 128 from rfl]
  norm_num

theorem sobelMag_uniform (y : Fin 64) (x : Fin 64) :
    sobelMag (grayMap uniformGray64) y x = 0 := by
  unfold sobelMag
  simp only [gray_uniform]
  norm_num

theorem sobelMin_uniform (y : Fin 64) (x : Fin 64) :
    sobelMin (grayMap uniformGray64) y x = 0 := by
  unfold sobelMin
  apply le_antisymm
  · have hle := Finset.inf'_le
      (fun p : Fin 64 × Fin 64 => sobelMag (grayMap uniformGray64) p.1 p.2)
      (Finset.mem_univ ((0 : Fin 64), (0 : Fin 64)))
    rw [sobelMag_uniform] at hle
    exact hle
  · apply Finset.le_inf'
    intro p _
    rw [sobelMag_uniform]

theorem sobelMax_uniform (y : Fin 64) (x : Fin 64) :
    sobelMax (grayMap uniformGray64) y x = 0 := by
  unfold sobelMax
  apply le_antisymm
  · apply Finset.sup'_le
    intro p _
    rw [sobelMag_uniform]
  · have hge := Finset.le_sup'
      (fun p : Fin 64 × Fin 64 => sobelMag (grayMap uniformGray64) p.1 p.2)
      (Finset.mem_univ ((0 : Fin 64), (0 : Fin 64)))
    rw [sobelMag_uniform] at hge
    exact hge

theorem gradNorm_uniform (y : Fin 64) (x : Fin 64) :
    compute_normalized_sobel (grayMap uniformGray64) y x = 0 := by
  unfold compute_normalized_sobel
  simp only [sobelMin_uniform, sobelMax_uniform, sobelMag_uniform]
  norm_num

theorem grayU8_uniform (y : Fin 64) (x : Fin 64) :
    grayU8 (grayMap uniformGray64) y x = 128 := by
  unfold grayU8
  rw [gray_uniform]
  norm_num
  decide

theorem windowVal_uniform (y : Fin 64) (x : Fin 64) (wy wx : Fin 5) :
    windowVal (grayMap uniformGray64) y x wy wx = 128 := by
  unfold windowVal
  exact grayU8_uniform _ _

theorem windowCount_uniform (y : Fin 64) (x : Fin 64) (k : Nat) :
    windowCount (grayMap uniformGray64) y x k = if k = 128 then 25 else 0 := by
  unfold windowCount
  rcases eq_or_ne k 128 with hk | hk
  · subst hk
    rw [if_pos rfl, Finset.filter_true_of_mem (fun p _ => windowVal_uniform y x p.1 p.2)]
    decide
  · rw [if_neg hk, Finset.filter_false_of_mem, Finset.card_empty]
    intro p _ hpk
    rw [windowVal_uniform] at hpk
    exact hk hpk.symm

theorem entropy_uniform (y : Fin 64) (x : Fin 64) :
    compute_local_entropy (grayMap uniformGray64) y x = 0 := by
  unfold compute_local_entropy
  have hsum : (∑ k ∈ Finset.range 256,
      if 0 < windowCount (grayMap uniformGray64) y x k then
        entropyTerm (windowCount (grayMap uniformGray64) y x k) else 0) = 0 := by
    rw [Finset.sum_eq_single 128]
    · rw [windowCount_uniform, if_pos rfl, if_pos (by norm_num)]
      unfold entropyTerm
      norm_num [Real.logb_one]
    · intro b _ hb
      rw [windowCount_uniform, if_neg hb]
      simp
    · intro h128
      exact absurd (Finset.mem_range.mpr (by norm_num)) h128
  rw [hsum]
  norm_num

theorem surface_uniform (y : Fin 64) (x : Fin 64) :
    surfaceScore uniformGray64 y x = 0 := by
  unfold surfaceScore
  rw [gradNorm_uniform, entropy_uniform]
  norm_num

theorem capacity_uniform (y : Fin 64) (x : Fin 64) :
    capacityMap uniformGray64 y x = 0 := by
  unfold capacityMap compute_capacity
  rw [surface_uniform]
  unfold capacityOfScore
  norm_num

theorem capTotal_uniform : capTotal uniformGray64 = 0 := by
  unfold capTotal
  apply List.sum_eq_zero
  intro v hv
  obtain ⟨i, _, hi⟩ := List.mem_map.mp hv
  subst hi
  unfold flatMap2
  split
  · split
    · exact capacity_uniform _ _
    · rfl
  · rfl

theorem lsbppEmbed_uniform_fails :
    lsbppEmbed trivialCrypto wRnd uniformGray64 (List.replicate 200 65) EmbedCred.plain =
      Except.error msgInsufficientCapacity := by
  have hst : buildStream trivialCrypto wRnd (List.replicate 200 65) EmbedCred.plain =
      Except.ok (MODE_NONE :: ((MAGIC ++ toBytesBE 4 200) ++ List.replicate 200 65),
        defaultSeed) := by rfl
  rw [lsbppEmbed_eq trivialCrypto wRnd uniformGray64 (List.replicate 200 65)
    EmbedCred.plain _ _ hst]
  have hlt : orderBits (build_pixel_order (entropyMapOf uniformGray64) defaultSeed)
      (flatMap2 (capacityMap uniformGray64)) <
      (bytes_to_bits (MODE_NONE :: ((MAGIC ++ toBytesBE 4 200) ++
        List.replicate 200 65))).length := by
    rw [orderBits_eq_capTotal uniformGray64 _ (build_pixel_order_perm _ _),
      capTotal_uniform, bytes_to_bits_length]
    simp
  rw [embed_insufficient _ _ _ _ hlt]

/-! ## Reflected borders and normalization bounds (C8 helpers) -/

theorem mirror_clampL (n : Nat) (x : Fin n) :
    mirrorIdxSpec n ((x.val : Int) - 1) = x.val - 1 := by
  have := x.isLt
  unfold mirrorIdxSpec
  split_ifs <;> omega

theorem mirror_clampR (n : Nat) (x : Fin n) :
    mirrorIdxSpec n ((x.val : Int) + 1) = min (x.val + 1) (n - 1) := by
  have := x.isLt
  unfold mirrorIdxSpec
  split_ifs <;> omega

theorem sobelMagSpec_eq {h w : Nat} (g : Fin h → Fin w → ℝ) (y : Fin h) (x : Fin w) :
    sobelMagSpec g y x = sobelMag g y x := by
  unfold sobelMagSpec sobelMag
  simp only [mirror_clampL, mirror_clampR]

theorem sobelMin_le_mag {h w : Nat} (g : Fin h → Fin w → ℝ) (y : Fin h) (x : Fin w) :
    sobelMin g y x ≤ sobelMag g y x :=
  Finset.inf'_le _ (Finset.mem_univ (y, x))

theorem mag_le_sobelMax {h w : Nat} (g : Fin h → Fin w → ℝ) (y : Fin h) (x : Fin w) :
    sobelMag g y x ≤ sobelMax g y x :=
  Finset.le_sup' (fun p : Fin h × Fin w => sobelMag g p.1 p.2) (Finset.mem_univ (y, x))

theorem gradNorm_bounds {h w : Nat} (g : Fin h → Fin w → ℝ) (y : Fin h) (x : Fin w) :
    0 ≤ compute_normalized_sobel g y x ∧ compute_normalized_sobel g y x ≤ 1 := by
  have hmn := sobelMin_le_mag g y x
  have hmx := mag_le_sobelMax g y x
  have key : ∀ a b c : ℝ, b ≤ a → a ≤ c →
      0 ≤ (a - b) / (if c - b = 0 then 1 else c - b) ∧
        (a - b) / (if c - b = 0 then 1 else c - b) ≤ 1 := by
    intro a b c hba hac
    by_cases hd : c - b = 0
    · rw [if_pos hd, div_one]
      constructor <;> linarith
    · rw [if_neg hd]
      have hcb : 0 < c - b := lt_of_le_of_ne (by linarith) (Ne.symm hd)
      constructor
      · apply div_nonneg <;> linarith
      · rw [div_le_one hcb]
        linarith
  exact key (sobelMag g y x) (sobelMin g y x) (sobelMax g y x) hmn hmx

/-! ## Truncated streams (C10 helpers) -/

theorem header7_len (L : Nat) : (MAGIC ++ toBytesBE 4 L).length = 7 := by
  simp [MAGIC, toBytesBE]

theorem validate_header_magic (L : Nat) (hL : L < 2 ^ 32) :
    validate_header (MAGIC ++ toBytesBE 4 L) = Except.ok L := by
  unfold validate_header
  rw [if_neg (show ¬((MAGIC ++ toBytesBE 4 L).length ≠ HEADER_LEN) from by
    rw [header7_len]; exact fun hne => hne rfl)]
  rw [if_neg (show ¬((MAGIC ++ toBytesBE 4 L).take 3 ≠ MAGIC) from by
    rw [take_app_len MAGIC _ 3 rfl]; exact fun hne => hne rfl)]
  rw [drop_app_len MAGIC _ 3 rfl, fromBytesBE_toBytesBE L hL]

theorem plain_stream_short (L : Nat) (hL : L < 2 ^ 32) (body : List Nat)
    (hshort : body.length ≤ L) :
    _decrypt_plain_stream (MODE_NONE :: ((MAGIC ++ toBytesBE 4 L) ++ body)) =
      Except.ok body := by
  have htake : (((MODE_NONE :: ((MAGIC ++ toBytesBE 4 L) ++ body)).drop 1).take HEADER_LEN) =
      MAGIC ++ toBytesBE 4 L := by
    show ((MAGIC ++ toBytesBE 4 L) ++ body).take 7 = _
    exact take_app_len _ _ _ (header7_len L)
  unfold _decrypt_plain_stream
  rw [htake, validate_header_magic L hL]
  have hdrop8 : (MODE_NONE :: ((MAGIC ++ toBytesBE 4 L) ++ body)).drop 8 = body := by
    show ((MAGIC ++ toBytesBE 4 L) ++ body).drop 7 = body
    exact drop_app_len _ _ _ (header7_len L)
  rw [hdrop8]
  show Except.ok (List.take L body) = Except.ok body
  rw [List.take_of_length_le hshort]

theorem sym_stream_truncated (C : CryptoOps) (pw : List Nat) (L : Nat) (hL : L < 2 ^ 32)
    (salt nonce ct : List Nat) (hsalt : salt.length = 16) (hnonce : nonce.length = 12)
    (hct : ct.length < L) :
    _decrypt_symmetric_stream C
      (MODE_SYMMETRIC :: ((MAGIC ++ toBytesBE 4 L) ++ (salt ++ (nonce ++ ct)))) pw =
      Except.error msgCiphertextTruncated := by
  have htake : (((MODE_SYMMETRIC :: ((MAGIC ++ toBytesBE 4 L) ++ (salt ++ (nonce ++ ct)))).drop 1).take
      HEADER_LEN) = MAGIC ++ toBytesBE 4 L := by
    show ((MAGIC ++ toBytesBE 4 L) ++ (salt ++ (nonce ++ ct))).take 7 = _
    exact take_app_len _ _ _ (header7_len L)
  have key : _decrypt_symmetric_stream C
      (MODE_SYMMETRIC :: ((MAGIC ++ toBytesBE 4 L) ++ (salt ++ (nonce ++ ct)))) pw =
      (if (MODE_SYMMETRIC :: ((MAGIC ++ toBytesBE 4 L) ++ (salt ++ (nonce ++ ct)))).length <
          36 + L then Except.error msgCiphertextTruncated
        else C.aesDec
          (C.kdf pw (((MODE_SYMMETRIC :: ((MAGIC ++ toBytesBE 4 L) ++
            (salt ++ (nonce ++ ct)))).drop 8).take SALT_LEN))
          (((MODE_SYMMETRIC :: ((MAGIC ++ toBytesBE 4 L) ++
            (salt ++ (nonce ++ ct)))).drop 24).take NONCE_LEN)
          (((MODE_SYMMETRIC :: ((MAGIC ++ toBytesBE 4 L) ++
            (salt ++ (nonce ++ ct)))).drop 36).take L)) := by
    unfold _decrypt_symmetric_stream
    rw [htake, validate_header_magic L hL]
  rw [key]
  rw [if_pos (by simp [MAGIC, toBytesBE, hsalt, hnonce]; omega)]

theorem asym_stream_truncated (C : CryptoOps) (sk : C.PrivKey) (L : Nat) (hL : L < 2 ^ 32)
    (ek nonce ct : List Nat) (hek : ek.length < 2 ^ 16) (hnonce : nonce.length = 12)
    (hct : ct.length < L) :
    _decrypt_asymmetric_stream C
      (MODE_ASYMMETRIC :: ((MAGIC ++ toBytesBE 4 L) ++
        (toBytesBE 2 ek.length ++ (ek ++ (nonce ++ ct))))) sk =
      Except.error msgCiphertextTruncated := by
  have htake : (((MODE_ASYMMETRIC :: ((MAGIC ++ toBytesBE 4 L) ++
      (toBytesBE 2 ek.length ++ (ek ++ (nonce ++ ct))))).drop 1).take HEADER_LEN) =
      MAGIC ++ toBytesBE 4 L := by
    show ((MAGIC ++ toBytesBE 4 L) ++ (toBytesBE 2 ek.length ++ (ek ++ (nonce ++ ct)))).take 7 = _
    exact take_app_len _ _ _ (header7_len L)
  have hekl : fromBytesBE (((MODE_ASYMMETRIC :: ((MAGIC ++ toBytesBE 4 L) ++
      (toBytesBE 2 ek.length ++ (ek ++ (nonce ++ ct))))).drop 8).take 2) = ek.length := by
    have hdrop : (MODE_ASYMMETRIC :: ((MAGIC ++ toBytesBE 4 L) ++
        (toBytesBE 2 ek.length ++ (ek ++ (nonce ++ ct))))).drop 8 =
        toBytesBE 2 ek.length ++ (ek ++ (nonce ++ ct)) := by
      show ((MAGIC ++ toBytesBE 4 L) ++ (toBytesBE 2 ek.length ++ (ek ++ (nonce ++ ct)))).drop 7 = _
      exact drop_app_len _ _ _ (header7_len L)
    rw [hdrop, take_app_len _ _ _ (by simp [toBytesBE]), fromBytesBE_toBytesBE2 ek.length hek]
  have key : _decrypt_asymmetric_stream C
      (MODE_ASYMMETRIC :: ((MAGIC ++ toBytesBE 4 L) ++
        (toBytesBE 2 ek.length ++ (ek ++ (nonce ++ ct))))) sk =
      (if (MODE_ASYMMETRIC :: ((MAGIC ++ toBytesBE 4 L) ++
          (toBytesBE 2 ek.length ++ (ek ++ (nonce ++ ct))))).length <
          22 + fromBytesBE (((MODE_ASYMMETRIC :: ((MAGIC ++ toBytesBE 4 L) ++
            (toBytesBE 2 ek.length ++ (ek ++ (nonce ++ ct))))).drop 8).take 2) + L then
          Except.error msgCiphertextTruncated
        else
          match C.rsaDec sk (((MODE_ASYMMETRIC :: ((MAGIC ++ toBytesBE 4 L) ++
              (toBytesBE 2 ek.length ++ (ek ++ (nonce ++ ct))))).drop 10).take
              (fromBytesBE (((MODE_ASYMMETRIC :: ((MAGIC ++ toBytesBE 4 L) ++
                (toBytesBE 2 ek.length ++ (ek ++ (nonce ++ ct))))).drop 8).take 2))) with
          | Except.error e => Except.error e
          | Except.ok symKey => C.aesDec symKey
              (((MODE_ASYMMETRIC :: ((MAGIC ++ toBytesBE 4 L) ++
                (toBytesBE 2 ek.length ++ (ek ++ (nonce ++ ct))))).drop
                (10 + fromBytesBE (((MODE_ASYMMETRIC :: ((MAGIC ++ toBytesBE 4 L) ++
                  (toBytesBE 2 ek.length ++ (ek ++ (nonce ++ ct))))).drop 8).take 2))).take
                NONCE_LEN)
              (((MODE_ASYMMETRIC :: ((MAGIC ++ toBytesBE 4 L) ++
                (toBytesBE 2 ek.length ++ (ek ++ (nonce ++ ct))))).drop
                (22 + fromBytesBE (((MODE_ASYMMETRIC :: ((MAGIC ++ toBytesBE 4 L) ++
                  (toBytesBE 2 ek.length ++ (ek ++ (nonce ++ ct))))).drop 8).take 2))).take L)) := by
    unfold _decrypt_asymmetric_stream
    rw [htake, validate_header_magic L hL]
  rw [key, hekl]
  rw [if_pos (by simp [MAGIC, toBytesBE, hnonce]; omega)]

/-! ## The claims -/

/-- Witness for C1: embedding the one-byte payload 65 into the striped
4x20 cover in mode none and extracting it back returns exactly that
byte. -/
theorem lsbpp_round_trip_witness :
    ∃ stego : Img 4 20,
      lsbppEmbed trivialCrypto wRnd stripeImg [65] (embedSide CredPair.plain) =
        Except.ok stego ∧
      lsbppExtract trivialCrypto stego (extractSide CredPair.plain) = Except.ok [65] :=
  lsbpp_round_trip trivialCrypto wRnd stripeImg [65] CredPair.plain
    (by decide) (by decide) trivial
    (MODE_NONE :: ((MAGIC ++ toBytesBE 4 1) ++ [65])) defaultSeed
    (by rfl)
    (le_trans
      (show 8 * (MODE_NONE :: ((MAGIC ++ toBytesBE 4 1) ++ [65])).length ≤ 144 by decide)
      capTotal_stripe)

/-- C2: the texture analysis is invariant under LSB-only changes.  Two
images whose channels agree after the mask with 0xFE share the
normalized gradient map, the entropy map, the surface score map and
the finalized capacity map; embedding only rewrites channel LSBs, so
cover and stego analyses coincide. -/
theorem texture_analysis_lsb_invariant {h w : Nat} (cover stego : Img h w)
    (hmask : ∀ (y : Fin h) (x : Fin w) (c : Fin 3),
      stego y x c &&& 0xFE = cover y x c &&& 0xFE) :
    compute_normalized_sobel (grayMap stego) = compute_normalized_sobel (grayMap cover) ∧
      entropyMapOf stego = entropyMapOf cover ∧
      surfaceScore stego = surfaceScore cover ∧
      capacityMap stego = capacityMap cover :=
  (analysis_of_masked cover stego hmask).2

/-- Witness for C2 on a one-pixel image whose three channels each moved
from 10 to 11 (an LSB-only change). -/
theorem texture_analysis_lsb_invariant_witness :
    compute_normalized_sobel (grayMap wStego) = compute_normalized_sobel (grayMap wCover) ∧
      entropyMapOf wStego = entropyMapOf wCover ∧
      surfaceScore wStego = surfaceScore wCover ∧
      capacityMap wStego = capacityMap wCover :=
  texture_analysis_lsb_invariant wCover wStego (by decide)

/-- Counterexample to C3 as claimed: on the uniform mid-gray 64x64
image the capacity map is 0 at pixel (0, 0), not 2, and embedding the
200-byte payload in mode none fails with the capacity error instead of
succeeding. -/
theorem uniform_midgray_not_two_bits :
    capacityMap uniformGray64 0 0 ≠ 2 ∧
      lsbppEmbed trivialCrypto wRnd uniformGray64 (List.replicate 200 65) EmbedCred.plain =
        Except.error msgInsufficientCapacity :=
  ⟨by rw [capacity_uniform]; decide, lsbppEmbed_uniform_fails⟩

/-- C3 amended: a uniform mid-gray 64x64 image has zero gradient and
zero local entropy everywhere, so its capacity map is 0 bits at every
pixel, the total budget is 0 bits, and embedding a 200-byte payload in
mode none fails with the insufficient-capacity error. -/
theorem uniform_midgray_zero_capacity :
    (∀ (y x : Fin 64), capacityMap uniformGray64 y x = 0) ∧
      capTotal uniformGray64 = 0 ∧
      lsbppEmbed trivialCrypto wRnd uniformGray64 (List.replicate 200 65) EmbedCred.plain =
        Except.error msgInsufficientCapacity :=
  ⟨capacity_uniform, capTotal_uniform, lsbppEmbed_uniform_fails⟩

/-- C4: when the envelope bit length exceeds the total finalized
capacity, embedding returns the insufficient-capacity error and no
stego image at all (the Except.error result carries no buffer, so
nothing is written). -/
theorem embed_over_capacity_errors (C : CryptoOps) (rnd : EmbedRandomness) {h w : Nat}
    (cover : Img h w) (payload : List Nat) (cred : EmbedCred C) (st seed : List Nat)
    (hstream : buildStream C rnd payload cred = Except.ok (st, seed))
    (hcap : capTotal cover < 8 * st.length) :
    lsbppEmbed C rnd cover payload cred = Except.error msgInsufficientCapacity := by
  rw [lsbppEmbed_eq C rnd cover payload cred st seed hstream]
  have hlt : orderBits (build_pixel_order (entropyMapOf cover) seed)
      (flatMap2 (capacityMap cover)) < (bytes_to_bits st).length := by
    rw [orderBits_eq_capTotal cover _ (build_pixel_order_perm _ _), bytes_to_bits_length]
    exact hcap
  rw [embed_insufficient _ _ _ _ hlt]

/-- Witness for C4: a 200-byte payload against the zero-capacity
uniform image. -/
theorem embed_over_capacity_errors_witness :
    lsbppEmbed trivialCrypto wRnd uniformGray64 (List.replicate 200 65) EmbedCred.plain =
      Except.error msgInsufficientCapacity :=
  embed_over_capacity_errors trivialCrypto wRnd uniformGray64 (List.replicate 200 65)
    EmbedCred.plain (MODE_NONE :: ((MAGIC ++ toBytesBE 4 200) ++ List.replicate 200 65))
    defaultSeed (by rfl) (by rw [capTotal_uniform]; decide)

/-- C5: for every entropy map over an h-by-w grid and every seed, the
pixel order is a permutation of the flat indices 0..h*w-1: no
duplicates and full coverage. -/
theorem pixel_order_is_permutation {h w : Nat} (e : Fin h → Fin w → ℝ) (seed : List Nat) :
    (build_pixel_order e seed).Perm (List.range (h * w)) ∧
      (build_pixel_order e seed).Nodup ∧
      ∀ p : Nat, p ∈ build_pixel_order e seed ↔ p < h * w := by
  refine ⟨build_pixel_order_perm e seed, build_pixel_order_nodup e seed, fun p => ?_⟩
  rw [(build_pixel_order_perm e seed).mem_iff, List.mem_range]

/-- C6: the capacity threshold table on a surface score s: 0 bits for
s up to 0.15, 1 bit on (0.15, 0.25], 2 bits on (0.25, 0.65], 3 bits
above 0.65; each boundary value falls in the lower bucket. -/
theorem capacity_threshold_table (s : ℝ) :
    (s ≤ 0.15 → capacityOfScore s = 0) ∧
      (0.15 < s → s ≤ 0.25 → capacityOfScore s = 1) ∧
      (0.25 < s → s ≤ 0.65 → capacityOfScore s = 2) ∧
      (0.65 < s → capacityOfScore s = 3) := by
  unfold capacityOfScore
  refine ⟨fun h1 => ?_, fun h1 h2 => ?_, fun h1 h2 => ?_, fun h1 => ?_⟩ <;>
    split_ifs with hA hB hC <;> first | rfl | (exfalso; linarith)

/-- Witness for C6 at the three boundary scores and one score above the
top threshold. -/
theorem capacity_threshold_table_witness :
    capacityOfScore 0.15 = 0 ∧ capacityOfScore 0.25 = 1 ∧
      capacityOfScore 0.65 = 2 ∧ capacityOfScore 0.7 = 3 :=
  ⟨(capacity_threshold_table 0.15).1 (le_refl _),
   (capacity_threshold_table 0.25).2.1 (by norm_num) (le_refl _),
   (capacity_threshold_table 0.65).2.2.1 (by norm_num) (le_refl _),
   (capacity_threshold_table 0.7).2.2.2 (by norm_num)⟩

/-- Counterexample to C7 as claimed: with a declared password
credential and a recovered stream whose mode byte is 0x00 (plaintext),
extraction's dispatch does not report a mode-mismatch error; it runs
the plaintext parser and returns its data. -/
theorem mode_mismatch_unchecked :
    dispatchDecrypt trivialCrypto (ExtractCred.password [1]) [0, 83, 84, 71, 0, 0, 0, 0] =
      Except.ok [] := rfl

/-- C7 amended: the two encrypted modes do report a wrapped
mode-mismatch error when the credential kind disagrees with the mode
byte, but a stream whose mode byte is 0x00 is always handed to the
plaintext parser, whatever credential the caller declared; no mismatch
error exists on that path. -/
theorem mode_dispatch_amended (C : CryptoOps) (cred : ExtractCred C) (sb : List Nat) :
    (sb.headD 0 = MODE_SYMMETRIC → (∀ pw, cred ≠ ExtractCred.password pw) →
      dispatchDecrypt C cred sb = Except.error (msgDecryptPrefix ++ msgMismatchSym)) ∧
      (sb.headD 0 = MODE_ASYMMETRIC → (∀ sk, cred ≠ ExtractCred.privateKey sk) →
        dispatchDecrypt C cred sb = Except.error (msgDecryptPrefix ++ msgMismatchAsym)) ∧
      (sb.headD 0 = MODE_NONE →
        dispatchDecrypt C cred sb =
          match _decrypt_plain_stream sb with
          | Except.ok v => Except.ok v
          | Except.error e => Except.error (msgDecryptPrefix ++ e)) := by
  refine ⟨fun hm hcred => ?_, fun hm hcred => ?_, fun hm => ?_⟩
  · rw [dispatchDecrypt_expand, hm, if_pos rfl]
    cases cred with
    | plain => rfl
    | password pw => exact absurd rfl (hcred pw)
    | privateKey sk => rfl
  · rw [dispatchDecrypt_expand, hm, if_neg (by decide), if_pos rfl]
    cases cred with
    | plain => rfl
    | password pw => rfl
    | privateKey sk => exact absurd rfl (hcred sk)
  · rw [dispatchDecrypt_expand, hm, if_neg (by decide), if_neg (by decide), if_pos rfl]

/-- Witness for C7 amended: a plain credential against symmetric and
asymmetric mode bytes, and a password credential against a plaintext
stream. -/
theorem mode_dispatch_amended_witness :
    dispatchDecrypt trivialCrypto ExtractCred.plain [1] =
      Except.error (msgDecryptPrefix ++ msgMismatchSym) ∧
      dispatchDecrypt trivialCrypto ExtractCred.plain [2] =
        Except.error (msgDecryptPrefix ++ msgMismatchAsym) ∧
      dispatchDecrypt trivialCrypto (ExtractCred.password [1]) [0, 83, 84, 71, 0, 0, 0, 0] =
        match _decrypt_plain_stream [0, 83, 84, 71, 0, 0, 0, 0] with
        | Except.ok v => Except.ok v
        | Except.error e => Except.error (msgDecryptPrefix ++ e) :=
  ⟨(mode_dispatch_amended trivialCrypto ExtractCred.plain [1]).1 rfl
      (fun pw h => nomatch h),
   (mode_dispatch_amended trivialCrypto ExtractCred.plain [2]).2.1 rfl
      (fun sk h => nomatch h),
   (mode_dispatch_amended trivialCrypto (ExtractCred.password [1])
      [0, 83, 84, 71, 0, 0, 0, 0]).2.2 rfl⟩

/-- C8: the gradient stage is the 3x3 Sobel magnitude with mirrored
borders (the source's clamped indices agree with the mirror reading for
the one-pixel reach of the kernel), min-max normalized over the whole
image with the result in [0, 1]. -/
theorem sobel_reflected_minmax {h w : Nat} (g : Fin h → Fin w → ℝ) (y : Fin h) (x : Fin w) :
    sobelMag g y x = sobelMagSpec g y x ∧
      compute_normalized_sobel g y x =
        (sobelMag g y x - sobelMin g y x) /
          (if sobelMax g y x - sobelMin g y x = 0 then 1
            else sobelMax g y x - sobelMin g y x) ∧
      0 ≤ compute_normalized_sobel g y x ∧ compute_normalized_sobel g y x ≤ 1 :=
  ⟨(sobelMagSpec_eq g y x).symm, rfl, (gradNorm_bounds g y x).1, (gradNorm_bounds g y x).2⟩

/-- C9: the pixel order is a deterministic function of the entropy map
and the seed, and the seed enters only through the 64-bit big-endian
integer read from the first 8 bytes of SHA-256 of the seed bytes: two
seeds with the same derived integer give the same order. -/
theorem pixel_order_seed_determinism {h w : Nat} (e : Fin h → Fin w → ℝ)
    (s1 s2 : List Nat) :
    seedInt s1 = fromBytesBE ((sha256 s1).take 8) ∧
      (seedInt s1 = seedInt s2 → build_pixel_order e s1 = build_pixel_order e s2) :=
  ⟨rfl, fun hs => build_pixel_order_seed_factor e s1 s2 hs⟩

/-- Witness for C9 with the seed bytes of the string abc on a 1x1
entropy map. -/
theorem pixel_order_seed_determinism_witness :
    seedInt [97, 98, 99] = fromBytesBE ((sha256 [97, 98, 99]).take 8) ∧
      build_pixel_order (fun (_ : Fin 1) (_ : Fin 1) => (0 : ℝ)) [97, 98, 99] =
        build_pixel_order (fun (_ : Fin 1) (_ : Fin 1) => (0 : ℝ)) [97, 98, 99] :=
  ⟨(pixel_order_seed_determinism (fun (_ : Fin 1) (_ : Fin 1) => (0 : ℝ))
      [97, 98, 99] [97, 98, 99]).1,
   (pixel_order_seed_determinism (fun (_ : Fin 1) (_ : Fin 1) => (0 : ℝ))
      [97, 98, 99] [97, 98, 99]).2 rfl⟩

/-- C10: on a stream shorter than its header promises, the plaintext
parser silently returns the bytes that are available (python slicing,
no truncation check), while the password and public-key parsers raise the
ciphertext-truncated error in the same situation. -/
theorem plain_parser_silent_truncation (L : Nat) (hL : L < 2 ^ 32) :
    (∀ body : List Nat, body.length < L →
      _decrypt_plain_stream (MODE_NONE :: ((MAGIC ++ toBytesBE 4 L) ++ body)) =
        Except.ok body) ∧
      (∀ (C : CryptoOps) (pw salt nonce ct : List Nat), salt.length = 16 →
        nonce.length = 12 → ct.length < L →
        _decrypt_symmetric_stream C
          (MODE_SYMMETRIC :: ((MAGIC ++ toBytesBE 4 L) ++ (salt ++ (nonce ++ ct)))) pw =
          Except.error msgCiphertextTruncated) ∧
      (∀ (C : CryptoOps) (sk : C.PrivKey) (ek nonce ct : List Nat), ek.length < 2 ^ 16 →
        nonce.length = 12 → ct.length < L →
        _decrypt_asymmetric_stream C
          (MODE_ASYMMETRIC :: ((MAGIC ++ toBytesBE 4 L) ++
            (toBytesBE 2 ek.length ++ (ek ++ (nonce ++ ct))))) sk =
          Except.error msgCiphertextTruncated) :=
  ⟨fun body hb => plain_stream_short L hL body (le_of_lt hb),
   fun C pw salt nonce ct hs hn hc => sym_stream_truncated C pw L hL salt nonce ct hs hn hc,
   fun C sk ek nonce ct he hn hc => asym_stream_truncated C sk L hL ek nonce ct he hn hc⟩

/-- Witness for C10 at L = 5 with a 1-byte body and empty ciphertexts. -/
theorem plain_parser_silent_truncation_witness :
    _decrypt_plain_stream (MODE_NONE :: ((MAGIC ++ toBytesBE 4 5) ++ [65])) =
      Except.ok [65] ∧
      _decrypt_symmetric_stream trivialCrypto
        (MODE_SYMMETRIC :: ((MAGIC ++ toBytesBE 4 5) ++
          (List.replicate 16 0 ++ (List.replicate 12 0 ++ [])))) [1] =
        Except.error msgCiphertextTruncated ∧
      _decrypt_asymmetric_stream trivialCrypto
        (MODE_ASYMMETRIC :: ((MAGIC ++ toBytesBE 4 5) ++
          (toBytesBE 2 (List.length ([] : List Nat)) ++ (([] : List Nat) ++
            (List.replicate 12 0 ++ []))))) () =
        Except.error msgCiphertextTruncated :=
  ⟨(plain_parser_silent_truncation 5 (by norm_num)).1 [65] (by decide),
   (plain_parser_silent_truncation 5 (by norm_num)).2.1 trivialCrypto [1]
      (List.replicate 16 0) (List.replicate 12 0) [] (by decide) (by decide) (by decide),
   (plain_parser_silent_truncation 5 (by norm_num)).2.2 trivialCrypto ()
      [] (List.replicate 12 0) [] (by decide) (by decide) (by decide)⟩

end LSBPlus
